import Mathlib

/-!
Verification of the monegle streaming core: a shallow embedding of the
codec (`monegle-core/src/codec.rs`), the batcher
(`monegle-sender/src/batcher.rs`), the decoder
(`monegle-receiver/src/decoder.rs`), the jitter buffer
(`monegle-receiver/src/buffer.rs`) and the adaptive playback scheduler
(`monegle-receiver/src/bin/adaptive-receiver.rs`).

Frames (Rust `String`/`str`) are modelled as `List Char` (Lean `Char` is a
Unicode scalar value, as Rust `char`); byte buffers (Rust `Vec<u8>`) as
`List Nat` whose elements are below 256 whenever produced by the embedded
encoders.  Machine integer casts (`as u32`, `u16`) are modelled with
explicit `% 2^w` arithmetic.  Fallible Rust functions returning
`Result<T>` are modelled as `Option T` (all error payloads collapse to
`none`); Rust functions whose `Result` is always `Ok` are modelled as
total functions.
-/

set_option maxRecDepth 16384

namespace Monegle

/-- Little-endian bytes of `n as u16` (`u16::to_le_bytes`). -/
def u16le (n : Nat) : List Nat := [n % 256, n / 256 % 256]

/-- Little-endian bytes of `n as u32` (`u32::to_le_bytes` after an `as u32`
cast, hence the implicit truncation mod `2^32`). -/
def u32le (n : Nat) : List Nat :=
  [n % 256, n / 256 % 256, n / 65536 % 256, n / 16777216 % 256]

/-- Little-endian bytes of `n as u64` (`u64::to_le_bytes`). -/
def u64le (n : Nat) : List Nat :=
  [n % 256, n / 256 % 256, n / 65536 % 256, n / 16777216 % 256,
   n / 4294967296 % 256, n / 1099511627776 % 256,
   n / 281474976710656 % 256, n / 72057594037927936 % 256]

theorem u16le_length (n : Nat) : (u16le n).length = 2 := rfl

theorem u32le_length (n : Nat) : (u32le n).length = 4 := rfl

theorem u64le_length (n : Nat) : (u64le n).length = 8 := rfl

/-- Reading four little-endian bytes back (`u32::from_le_bytes`). -/
def u32leVal (b0 b1 b2 b3 : Nat) : Nat :=
  b0 + 256 * b1 + 65536 * b2 + 16777216 * b3

theorem u32le_roundtrip (n : Nat) (h : n < 4294967296) :
    u32leVal (n % 256) (n / 256 % 256) (n / 65536 % 256) (n / 16777216 % 256) = n := by
  simp only [u32leVal]
  omega

theorem u32le_wrap (n : Nat) :
    u32leVal (n % 256) (n / 256 % 256) (n / 65536 % 256) (n / 16777216 % 256) =
      n % 4294967296 := by
  simp only [u32leVal]
  omega

/-- UTF-8 encoding of a single scalar value, as Rust `char::encode_utf8`
produces it (1 to 4 bytes). -/
def utf8EncodeCh (c : Char) : List Nat :=
  if c.toNat < 128 then [c.toNat]
  else if c.toNat < 2048 then [192 + c.toNat / 64, 128 + c.toNat % 64]
  else if c.toNat < 65536 then
    [224 + c.toNat / 4096, 128 + c.toNat / 64 % 64, 128 + c.toNat % 64]
  else
    [240 + c.toNat / 262144, 128 + c.toNat / 4096 % 64, 128 + c.toNat / 64 % 64,
     128 + c.toNat % 64]

theorem utf8EncodeCh_length_pos (c : Char) : 0 < (utf8EncodeCh c).length := by
  unfold utf8EncodeCh
  split <;> [skip; split] <;> [simp; simp; skip]
  split <;> simp

theorem utf8EncodeCh_length_le (c : Char) : (utf8EncodeCh c).length ≤ 4 := by
  unfold utf8EncodeCh
  split <;> [skip; split] <;> [simp; simp; skip]
  split <;> simp

/-- A UTF-8 continuation byte (`0x80..=0xBF`). -/
def contB (x : Nat) : Prop := 128 ≤ x ∧ x < 192

instance (x : Nat) : Decidable (contB x) :=
  inferInstanceAs (Decidable (128 ≤ x ∧ x < 192))

/-- Constraint on the first continuation byte of a three-byte sequence
(excludes overlong forms for lead `0xE0` and surrogates for lead `0xED`). -/
def cont3First (b b1 : Nat) : Prop :=
  if b = 224 then 160 ≤ b1 ∧ b1 < 192
  else if b = 237 then 128 ≤ b1 ∧ b1 < 160
  else contB b1

instance (b b1 : Nat) : Decidable (cont3First b b1) :=
  inferInstanceAs (Decidable (if b = 224 then 160 ≤ b1 ∧ b1 < 192
    else if b = 237 then 128 ≤ b1 ∧ b1 < 160 else contB b1))

/-- Constraint on the first continuation byte of a four-byte sequence
(excludes overlong forms for lead `0xF0` and values above `0x10FFFF` for
lead `0xF4`). -/
def cont4First (b b1 : Nat) : Prop :=
  if b = 240 then 144 ≤ b1 ∧ b1 < 192
  else if b = 244 then 128 ≤ b1 ∧ b1 < 144
  else contB b1

instance (b b1 : Nat) : Decidable (cont4First b b1) :=
  inferInstanceAs (Decidable (if b = 240 then 144 ≤ b1 ∧ b1 < 192
    else if b = 244 then 128 ≤ b1 ∧ b1 < 144 else contB b1))

/-- Read the continuation byte of a two-byte sequence with lead `b`. -/
def utf8Cont1 (b : Nat) : List Nat → Option (Char × List Nat)
  | b1 :: rest =>
    if contB b1 then some (Char.ofNat ((b - 192) * 64 + (b1 - 128)), rest) else none
  | [] => none

/-- Read the two continuation bytes of a three-byte sequence with lead `b`. -/
def utf8Cont2 (b : Nat) : List Nat → Option (Char × List Nat)
  | b1 :: b1' :: rest =>
    if cont3First b b1 ∧ contB b1' then
      some (Char.ofNat ((b - 224) * 4096 + (b1 - 128) * 64 + (b1' - 128)), rest)
    else none
  | [] => none
  | [_] => none

/-- Read the three continuation bytes of a four-byte sequence with lead `b`. -/
def utf8Cont3 (b : Nat) : List Nat → Option (Char × List Nat)
  | b1 :: b1' :: b1'' :: rest =>
    if cont4First b b1 ∧ contB b1' ∧ contB b1'' then
      some (Char.ofNat ((b - 240) * 262144 + (b1 - 128) * 4096 + (b1' - 128) * 64 +
        (b1'' - 128)), rest)
    else none
  | [] => none
  | [_] => none
  | [_, _] => none

/-- Decode one UTF-8 scalar value from lead byte `b` followed by `bs`,
returning the character and the remaining bytes, with exactly the
validation `std::str::from_utf8` performs (continuation ranges, no
overlongs, no surrogates, maximum `0x10FFFF`). -/
def utf8Step (b : Nat) (bs : List Nat) : Option (Char × List Nat) :=
  if b < 128 then some (Char.ofNat b, bs)
  else if b < 194 then none
  else if b < 224 then utf8Cont1 b bs
  else if b < 240 then utf8Cont2 b bs
  else if b < 245 then utf8Cont3 b bs
  else none

/-- Fuel-indexed strict UTF-8 decoding of a whole byte sequence.  Each step
consumes at least one byte, so fuel equal to the byte count always
suffices; the fuel argument only bounds the iteration count of Rust's
internal decoding loop. -/
def utf8DecodeAux : Nat → List Nat → Option (List Char)
  | _, [] => some []
  | 0, _ :: _ => none
  | f + 1, b :: bs =>
    match utf8Step b bs with
    | some (c, rest) => (utf8DecodeAux f rest).map (c :: ·)
    | none => none

/-- Strict UTF-8 decoding of an entire byte sequence
(`String::from_utf8` / `std::str::from_utf8` followed by `chars()`). -/
def utf8Decode (l : List Nat) : Option (List Char) := utf8DecodeAux l.length l

theorem char_toNat_valid (c : Char) :
    c.toNat < 55296 ∨ (57343 < c.toNat ∧ c.toNat < 1114112) := c.valid

/-- Stepping at the head of a validly encoded character consumes exactly
its encoding and yields exactly that character. -/
theorem utf8Step_encodeCh (c : Char) (bs : List Nat) :
    utf8Step ((utf8EncodeCh c ++ bs).headD 0) ((utf8EncodeCh c ++ bs).tail) =
      some (c, bs) := by
  rcases char_toNat_valid c with hv | ⟨hv1, hv2⟩ <;>
  · have hofNat : Char.ofNat c.toNat = c := Char.ofNat_toNat c
    unfold utf8EncodeCh
    by_cases h1 : c.toNat < 128
    · simp only [h1, if_true, List.cons_append, List.nil_append, List.headD_cons,
        List.tail_cons, utf8Step, hofNat]
    · by_cases h2 : c.toNat < 2048
      · simp only [h1, h2, if_false, if_true, List.cons_append, List.nil_append,
          List.headD_cons, List.tail_cons, utf8Step]
        have hb : ¬ (192 + c.toNat / 64 < 128) := by omega
        have hb2 : ¬ (192 + c.toNat / 64 < 194) := by omega
        have hb3 : 192 + c.toNat / 64 < 224 := by omega
        have hc : contB (128 + c.toNat % 64) := by unfold contB; omega
        simp only [hb, hb2, hb3, if_false, if_true, utf8Cont1, hc, ite_true]
        have hval : (192 + c.toNat / 64 - 192) * 64 + (128 + c.toNat % 64 - 128) =
            c.toNat := by
          omega
        rw [hval, hofNat]
      · by_cases h3 : c.toNat < 65536
        · simp only [h1, h2, h3, if_false, if_true, List.cons_append, List.nil_append,
            List.headD_cons, List.tail_cons, utf8Step]
          have hb : ¬ (224 + c.toNat / 4096 < 128) := by omega
          have hb2 : ¬ (224 + c.toNat / 4096 < 194) := by omega
          have hb3 : ¬ (224 + c.toNat / 4096 < 224) := by omega
          have hb4 : 224 + c.toNat / 4096 < 240 := by omega
          simp only [hb, hb2, hb3, hb4, if_false, if_true, utf8Cont2]
          have hdd : c.toNat / 64 / 64 = c.toNat / 4096 := by
            rw [Nat.div_div_eq_div_mul]
          have hm1 : c.toNat / 64 % 64 + 64 * (c.toNat / 64 / 64) = c.toNat / 64 :=
            Nat.mod_add_div _ _
          have hm1' : c.toNat / 64 % 64 < 64 := Nat.mod_lt _ (by norm_num)
          have hcond : cont3First (224 + c.toNat / 4096) (128 + c.toNat / 64 % 64) := by
            unfold cont3First contB
            by_cases he : 224 + c.toNat / 4096 = 224
            · rw [if_pos he]
              omega
            · by_cases he2 : 224 + c.toNat / 4096 = 237
              · rw [if_neg he, if_pos he2]
                omega
              · rw [if_neg he, if_neg he2]
                omega
          have hc2 : contB (128 + c.toNat % 64) := by unfold contB; omega
          simp only [hcond, hc2, and_self, ite_true]
          have hval : (224 + c.toNat / 4096 - 224) * 4096 +
              (128 + c.toNat / 64 % 64 - 128) * 64 + (128 + c.toNat % 64 - 128) =
              c.toNat := by
            omega
          rw [hval, hofNat]
        · simp only [h1, h2, h3, if_false, List.cons_append, List.nil_append,
            List.headD_cons, List.tail_cons, utf8Step]
          have hb : ¬ (240 + c.toNat / 262144 < 128) := by omega
          have hb2 : ¬ (240 + c.toNat / 262144 < 194) := by omega
          have hb3 : ¬ (240 + c.toNat / 262144 < 224) := by omega
          have hb4 : ¬ (240 + c.toNat / 262144 < 240) := by omega
          have hb5 : 240 + c.toNat / 262144 < 245 := by omega
          simp only [hb, hb2, hb3, hb4, hb5, if_false, if_true, utf8Cont3]
          have hdd : c.toNat / 64 / 64 = c.toNat / 4096 := by
            rw [Nat.div_div_eq_div_mul]
          have hdd2 : c.toNat / 4096 / 64 = c.toNat / 262144 := by
            rw [Nat.div_div_eq_div_mul]
          have hm1 : c.toNat / 64 % 64 + 64 * (c.toNat / 64 / 64) = c.toNat / 64 :=
            Nat.mod_add_div _ _
          have hm1' : c.toNat / 64 % 64 < 64 := Nat.mod_lt _ (by norm_num)
          have hm2 : c.toNat / 4096 % 64 + 64 * (c.toNat / 4096 / 64) = c.toNat / 4096 :=
            Nat.mod_add_div _ _
          have hm2' : c.toNat / 4096 % 64 < 64 := Nat.mod_lt _ (by norm_num)
          have hcond : cont4First (240 + c.toNat / 262144) (128 + c.toNat / 4096 % 64) := by
            unfold cont4First contB
            by_cases he : 240 + c.toNat / 262144 = 240
            · rw [if_pos he]
              omega
            · by_cases he2 : 240 + c.toNat / 262144 = 244
              · rw [if_neg he, if_pos he2]
                omega
              · rw [if_neg he, if_neg he2]
                omega
          have hc2 : contB (128 + c.toNat / 64 % 64) := by unfold contB; omega
          have hc3 : contB (128 + c.toNat % 64) := by unfold contB; omega
          simp only [hcond, hc2, hc3, and_self, ite_true]
          have hval : (240 + c.toNat / 262144 - 240) * 262144 +
              (128 + c.toNat / 4096 % 64 - 128) * 4096 +
              (128 + c.toNat / 64 % 64 - 128) * 64 + (128 + c.toNat % 64 - 128) =
              c.toNat := by
            omega
          rw [hval, hofNat]

/-- A successful step never produces more remaining bytes than it was given. -/
theorem utf8Step_rest_length {b : Nat} {bs rest : List Nat} {c : Char}
    (h : utf8Step b bs = some (c, rest)) : rest.length ≤ bs.length := by
  unfold utf8Step at h
  split_ifs at h
  · injection h with h'
    injection h' with h1 h2
    subst h2
    exact Nat.le_refl _
  · rcases bs with _ | ⟨b1, r⟩
    · simp [utf8Cont1] at h
    · simp only [utf8Cont1] at h
      split at h
      · injection h with h'
        injection h' with h1 h2
        subst h2
        simp
      · exact Option.noConfusion h
  · rcases bs with _ | ⟨b1, _ | ⟨b2, r⟩⟩
    · simp [utf8Cont2] at h
    · simp [utf8Cont2] at h
    · simp only [utf8Cont2] at h
      split at h
      · injection h with h'
        injection h' with h1 h2
        subst h2
        simp
        omega
      · exact Option.noConfusion h
  · rcases bs with _ | ⟨b1, _ | ⟨b2, _ | ⟨b3, r⟩⟩⟩
    · simp [utf8Cont3] at h
    · simp [utf8Cont3] at h
    · simp [utf8Cont3] at h
    · simp only [utf8Cont3] at h
      split at h
      · injection h with h'
        injection h' with h1 h2
        subst h2
        simp
        omega
      · exact Option.noConfusion h

/-- Decoding is insensitive to the exact fuel as long as it covers the
byte count. -/
theorem utf8DecodeAux_fuel (f : Nat) :
    ∀ (f' : Nat) (l : List Nat), l.length ≤ f → l.length ≤ f' →
      utf8DecodeAux f l = utf8DecodeAux f' l := by
  induction f using Nat.strong_induction_on with
  | _ f ih =>
    intro f' l h h'
    rcases l with _ | ⟨b, bs⟩
    · cases f <;> cases f' <;> rfl
    · rcases f with _ | f
      · simp at h
      · rcases f' with _ | f'
        · simp at h'
        · simp only [utf8DecodeAux]
          rcases hstep : utf8Step b bs with _ | ⟨c, rest⟩
          · rfl
          · have hlen := utf8Step_rest_length hstep
            simp only [List.length_cons] at h h'
            dsimp only
            rw [ih f (Nat.lt_succ_self f) f' rest (by omega) (by omega)]

/-- Decoding a validly encoded character at the head of a byte stream
consumes exactly its encoding and yields exactly that character. -/
theorem utf8Decode_encodeCh_append (c : Char) (bs : List Nat) :
    utf8Decode (utf8EncodeCh c ++ bs) = (utf8Decode bs).map (c :: ·) := by
  have hpos := utf8EncodeCh_length_pos c
  obtain ⟨b, e', he⟩ : ∃ b e', utf8EncodeCh c = b :: e' := by
    rcases hx : utf8EncodeCh c with _ | ⟨b, e'⟩
    · rw [hx] at hpos
      simp at hpos
    · exact ⟨b, e', rfl⟩
  have hstep : utf8Step b (e' ++ bs) = some (c, bs) := by
    have h := utf8Step_encodeCh c bs
    rw [he] at h
    simpa using h
  unfold utf8Decode
  rw [he]
  simp only [List.cons_append, List.length_cons, List.length_append]
  rw [utf8DecodeAux]
  rw [hstep]
  dsimp only
  rw [utf8DecodeAux_fuel (e'.length + bs.length) bs.length bs (by omega) (Nat.le_refl _)]

/-- Decoding the exact encoding of one character yields that character alone. -/
theorem utf8Decode_encodeCh (c : Char) : utf8Decode (utf8EncodeCh c) = some [c] := by
  have h := utf8Decode_encodeCh_append c []
  simpa [utf8Decode, utf8DecodeAux] using h

/-- UTF-8 encoding of a whole string (`str::as_bytes` of the frame text). -/
def utf8EncodeStr (s : List Char) : List Nat := s.flatMap utf8EncodeCh

/-- Full-string UTF-8 roundtrip: `String::from_utf8(s.as_bytes()) == Ok(s)`. -/
theorem utf8Decode_encodeStr (s : List Char) : utf8Decode (utf8EncodeStr s) = some s := by
  induction s with
  | nil => rfl
  | cons c rest ih =>
    simp only [utf8EncodeStr, List.flatMap_cons] at *
    rw [utf8Decode_encodeCh_append, ih]
    rfl

/-- Compression strategies (`CompressionType` in `monegle-core/src/types.rs`,
variant indices 0..4). -/
inductive CompressionType where
  | None
  | Rle
  | Delta
  | Zlib
  | Auto
deriving DecidableEq, Repr

/-- Serde variant index of a `CompressionType` (bincode writes it as `u32`). -/
def CompressionType.index : CompressionType → Nat
  | .None => 0
  | .Rle => 1
  | .Delta => 2
  | .Zlib => 3
  | .Auto => 4

/-- ASCII character sets (`CharacterSet` in `types.rs`), carried only as an
enum tag by the wire format. -/
inductive CharacterSet where
  | Standard
  | Dense
  | Blocks
  | Detailed
deriving DecidableEq, Repr

def CharacterSet.index : CharacterSet → Nat
  | .Standard => 0
  | .Dense => 1
  | .Blocks => 2
  | .Detailed => 3

/-- Color modes (`ColorMode` in `types.rs`), carried only as an enum tag by
the wire format. -/
inductive ColorMode where
  | None
  | Purple
  | Blue
  | Green
  | Rgb
deriving DecidableEq, Repr

def ColorMode.index : ColorMode → Nat
  | .None => 0
  | .Purple => 1
  | .Blue => 2
  | .Green => 3
  | .Rgb => 4

/-- Stream metadata (`StreamMetadata` in `types.rs`).  The numeric fields are
`u8`/`u16` in Rust; they are carried as `Nat` here and truncated by the
serializer exactly as bincode's fixed-width encoding does. -/
structure StreamMetadata where
  fps : Nat
  width : Nat
  height : Nat
  compression_type : CompressionType
  character_set : CharacterSet
  color_mode : ColorMode
  frames_per_batch : Nat
deriving DecidableEq, Repr

/-- A single compressed frame (`CompressedFrame` in `types.rs`). -/
structure CompressedFrame where
  compression_type : CompressionType
  data : List Nat
  frame_number : Nat
  is_keyframe : Bool
deriving DecidableEq, Repr

/-- A batch of compressed frames (`FrameBatch` in `types.rs`).  `stream_id`
is a `[u8; 32]` in Rust, modelled as the list of its 32 bytes. -/
structure FrameBatch where
  stream_id : List Nat
  sequence : Nat
  metadata : StreamMetadata
  frames : List CompressedFrame
  timestamp : Nat
deriving DecidableEq, Repr

/-- Bincode (v1, fixed-width little-endian) serialization of
`StreamMetadata`, as `bincode::serialize` lays it out: `u8`, `u16`, `u16`,
three `u32` enum variant indices, `u8`. -/
def metadataBytes (md : StreamMetadata) : List Nat :=
  [md.fps % 256] ++ u16le md.width ++ u16le md.height ++
    u32le md.compression_type.index ++ u32le md.character_set.index ++
    u32le md.color_mode.index ++ [md.frames_per_batch % 256]

/-- Bincode serialization of one `CompressedFrame`: `u32` enum index,
`u64` byte-vector length followed by the bytes, `u64` frame number and one
`bool` byte. -/
def frameBytes (f : CompressedFrame) : List Nat :=
  u32le f.compression_type.index ++ u64le f.data.length ++ f.data ++
    u64le f.frame_number ++ [if f.is_keyframe then 1 else 0]

/-- Bincode serialization of a whole `FrameBatch`
(`FrameBatch::encode_to_bytes`): the 32 raw `stream_id` bytes, `u64`
sequence, metadata, `u64` frame count followed by the frames, `u64`
timestamp. -/
def FrameBatch.encodeToBytes (b : FrameBatch) : List Nat :=
  b.stream_id ++ u64le b.sequence ++ metadataBytes b.metadata ++
    u64le b.frames.length ++ b.frames.flatMap frameBytes ++ u64le b.timestamp

/-- `FrameBatch::size_bytes`: the length of the bincode serialization. -/
def FrameBatch.sizeBytes (b : FrameBatch) : Nat := b.encodeToBytes.length

/-- The serialized size of a batch does not depend on its sequence number
or timestamp (bincode writes both as fixed eight-byte fields). -/
theorem sizeBytes_congr (sid : List Nat) (md : StreamMetadata)
    (fs : List CompressedFrame) (sq sq' ts ts' : Nat) :
    FrameBatch.sizeBytes ⟨sid, sq, md, fs, ts⟩ =
      FrameBatch.sizeBytes ⟨sid, sq', md, fs, ts'⟩ := by
  simp [FrameBatch.sizeBytes, FrameBatch.encodeToBytes, u64le]

/-- `NoneEncoder::encode` (`codec.rs`): the frame's raw UTF-8 bytes. -/
def noneEncode (current : List Char) : List Nat := utf8EncodeStr current

/-- `NoneEncoder::decode`: `String::from_utf8`. -/
def noneDecode (data : List Nat) : Option (List Char) := utf8Decode data

/-- `NoneEncoder` roundtrip. -/
theorem noneDecode_encode (s : List Char) : noneDecode (noneEncode s) = some s :=
  utf8Decode_encodeStr s

/-- Length of the run of characters equal to `c` at the head of a list. -/
def countRun (c : Char) : List Char → Nat
  | [] => 0
  | x :: xs => if x = c then countRun c xs + 1 else 0

/-- `RleEncoder::encode` (`codec.rs`): each maximal run (capped at 65535
repeats, the `count < u16::MAX` guard) becomes
`[count:u16-LE][char-byte-length:u8][utf8 bytes]`.  The fuel is the number
of characters; each iteration consumes at least one, so it always
suffices. -/
def rleEncodeAux : Nat → List Char → List Nat
  | _, [] => []
  | 0, _ :: _ => []
  | f + 1, c :: rest =>
    u16le (min (countRun c rest + 1) 65535) ++
      (utf8EncodeCh c).length :: utf8EncodeCh c ++
      rleEncodeAux f (rest.drop (min (countRun c rest + 1) 65535 - 1))

def rleEncode (s : List Char) : List Nat := rleEncodeAux s.length s

/-- `RleEncoder::decode` (`codec.rs`): while more than three bytes remain,
read a `u16` count, a character byte length, the character bytes (error if
they run past the end, are invalid UTF-8 or hold no character), and emit
`count` copies.  A trailing remnant of at most three bytes is ignored, as
the `while i + 3 < data.len()` loop condition ignores it.  The fuel is the
byte count; each iteration consumes at least three bytes. -/
def rleDecodeAux : Nat → List Nat → Option (List Char)
  | _, [] => some []
  | _, [_] => some []
  | _, [_, _] => some []
  | _, [_, _, _] => some []
  | 0, _ => none
  | f + 1, b0 :: b1 :: b2 :: rest =>
    if rest.length < b2 then none
    else
      match utf8Decode (rest.take b2) with
      | some (ch :: _) =>
        (rleDecodeAux f (rest.drop b2)).map (List.replicate (b0 + 256 * b1) ch ++ ·)
      | some [] => none
      | none => none

def rleDecode (data : List Nat) : Option (List Char) := rleDecodeAux data.length data

theorem take_countRun (c : Char) (l : List Char) (k : Nat) (h : k ≤ countRun c l) :
    l.take k = List.replicate k c := by
  induction l generalizing k with
  | nil =>
    simp only [countRun] at h
    simp [Nat.le_zero.mp h]
  | cons x xs ih =>
    rcases k with _ | k
    · simp
    · simp only [countRun] at h
      split at h
      · rename_i hx
        subst hx
        simp only [List.take_succ_cons, List.replicate_succ]
        rw [ih k (by omega)]
      · omega

theorem rleDecodeAux_nil (df : Nat) : rleDecodeAux df [] = some [] := by
  cases df <;> rfl

/-- Decoding an RLE encoding with sufficient fuel on both sides recovers
the original character list. -/
theorem rleDecodeAux_encodeAux (n : Nat) :
    ∀ (s : List Char) (df : Nat), s.length ≤ n → (rleEncodeAux n s).length ≤ df →
      rleDecodeAux df (rleEncodeAux n s) = some s := by
  induction n with
  | zero =>
    intro s df hs _
    have : s = [] := List.length_eq_zero.mp (Nat.le_zero.mp hs)
    subst this
    simp only [rleEncodeAux]
    exact rleDecodeAux_nil df
  | succ n ih =>
    intro s df hs hdf
    rcases s with _ | ⟨c, rest⟩
    · simp only [rleEncodeAux]
      exact rleDecodeAux_nil df
    · obtain ⟨h0, t0, hch⟩ : ∃ h0 t0, utf8EncodeCh c = h0 :: t0 := by
        have hpos := utf8EncodeCh_length_pos c
        rcases hx : utf8EncodeCh c with _ | ⟨h0, t0⟩
        · rw [hx] at hpos
          simp at hpos
        · exact ⟨h0, t0, rfl⟩
      simp only [List.length_cons] at hs
      set k := min (countRun c rest + 1) 65535 with hk
      have hcount1 : 1 ≤ k := by omega
      have hcount2 : k ≤ 65535 := by omega
      have hkrun : k - 1 ≤ countRun c rest := by omega
      simp only [rleEncodeAux, u16le] at hdf ⊢
      rw [← hk] at hdf ⊢
      set E := rleEncodeAux n (rest.drop (k - 1)) with hE
      rw [hch] at hdf ⊢
      simp only [List.cons_append, List.nil_append, List.length_cons,
        List.length_append] at hdf ⊢
      rcases df with _ | f
      · omega
      · rw [rleDecodeAux]
        have hlen : ¬ ((h0 :: (t0 ++ E)).length < t0.length + 1) := by
          simp only [List.length_cons, List.length_append]
          omega
        rw [if_neg hlen]
        have htake : List.take (t0.length + 1) (h0 :: (t0 ++ E)) = h0 :: t0 := by
          simp only [List.take_succ_cons]
          rw [List.take_left]
        have hdrop : List.drop (t0.length + 1) (h0 :: (t0 ++ E)) = E := by
          simp only [List.drop_succ_cons]
          rw [List.drop_left]
        rw [htake, hdrop]
        have hdec : utf8Decode (h0 :: t0) = some [c] := by
          rw [← hch]
          exact utf8Decode_encodeCh c
        rw [hdec]
        dsimp only
        rw [ih (rest.drop (k - 1)) f
          (by simp only [List.length_drop]; omega) (by rw [← hE]; omega)]
        simp only [Option.map_some']
        congr 1
        have hmod : k % 256 + 256 * (k / 256 % 256) = k := by omega
        rw [hmod]
        obtain ⟨k', hk'⟩ : ∃ k', k = k' + 1 := ⟨k - 1, by omega⟩
        rw [hk']
        simp only [Nat.add_sub_cancel]
        rw [List.replicate_succ, List.cons_append]
        congr 1
        rw [← take_countRun c rest k' (by omega)]
        exact List.take_append_drop _ _
        exact fun hcon => List.noConfusion hcon

/-- `RleEncoder` roundtrip for every frame, including the empty frame and
frames with runs longer than 65535 identical characters. -/
theorem rleDecode_encode (s : List Char) : rleDecode (rleEncode s) = some s := by
  unfold rleDecode rleEncode
  exact rleDecodeAux_encodeAux s.length s _ (Nat.le_refl _) (Nat.le_refl _)

/-- `Vec::resize(len, ' ')` on a character vector: truncate to `n` or pad
with spaces up to `n`. -/
def padTruncate (l : List Char) (n : Nat) : List Char :=
  l.take n ++ List.replicate (n - l.length) ' '

theorem padTruncate_length (l : List Char) (n : Nat) : (padTruncate l n).length = n := by
  simp only [padTruncate, List.length_append, List.length_take, List.length_replicate]
  omega

theorem padTruncate_of_length_eq {l : List Char} {n : Nat} (h : l.length = n) :
    padTruncate l n = l := by
  simp [padTruncate, h, List.take_of_length_le (Nat.le_of_eq h)]

theorem padTruncate_idem (l : List Char) (n : Nat) :
    padTruncate (padTruncate l n) n = padTruncate l n :=
  padTruncate_of_length_eq (padTruncate_length l n)

/-- The change list `DeltaEncoder::encode` walks: one entry per position
`i < max(|current|, |previous|)` where the two frames disagree, carrying
the current character, or `none` past the end of the current frame. -/
def deltaDiffs (curr prev : List Char) : List (Nat × Option Char) :=
  (List.range (max curr.length prev.length)).filterMap
    (fun i => if curr[i]? ≠ prev[i]? then some (i, curr[i]?) else none)

/-- Wire bytes of one change entry:
`[position:u32-LE][char-byte-length:u8][utf8 bytes]`, with byte length `0`
as the end-of-string marker. -/
def deltaEntryBytes : Nat × Option Char → List Nat
  | (p, some c) => u32le p ++ (utf8EncodeCh c).length :: utf8EncodeCh c
  | (p, none) => u32le p ++ [0]

/-- `DeltaEncoder::encode` (`codec.rs`): `[current-length:u32-LE]`
`[change-count:u32-LE]` followed by the change entries.  An absent
previous frame is treated as empty (`previous.unwrap_or("")`); the length,
count and positions pass through `as u32` casts, hence the truncation
inside `u32le`. -/
def deltaEncode (current : List Char) (previous : Option (List Char)) : List Nat :=
  u32le current.length ++ u32le (deltaDiffs current (previous.getD [])).length ++
    (deltaDiffs current (previous.getD [])).flatMap deltaEntryBytes

/-- The change-application loop of `DeltaEncoder::decode`: runs once per
declared change (the count is the structural recursion argument, exactly
Rust's `for _ in 0..changes`); errors when fewer than five bytes remain or
on invalid character bytes; skips entries with byte length zero; writes
only positions inside the current buffer.  Leftover bytes after the last
declared change are ignored, as in the source. -/
def deltaApplyChanges : Nat → List Nat → List Char → Option (List Char)
  | 0, _, result => some result
  | cnt + 1, data, result =>
    match data with
    | p0 :: p1 :: p2 :: p3 :: l :: rest =>
      if l = 0 then deltaApplyChanges cnt rest result
      else if rest.length < l then none
      else
        match utf8Decode (rest.take l) with
        | some (ch :: _) =>
          deltaApplyChanges cnt (rest.drop l)
            (if u32leVal p0 p1 p2 p3 < result.length then
              result.set (u32leVal p0 p1 p2 p3) ch
            else result)
        | some [] => none
        | none => none
    | _ => none

/-- `DeltaEncoder::decode` (`codec.rs`): errors on fewer than eight bytes,
reads the current length and change count, resizes the previous frame
(empty when absent) to the current length padding with spaces, then
applies the change entries. -/
def deltaDecode (data : List Nat) (previous : Option (List Char)) : Option (List Char) :=
  match data with
  | b0 :: b1 :: b2 :: b3 :: c0 :: c1 :: c2 :: c3 :: rest =>
    deltaApplyChanges (u32leVal c0 c1 c2 c3) rest
      (padTruncate (previous.getD []) (u32leVal b0 b1 b2 b3))
  | _ => none

/-- The effect of one change entry on the reconstruction buffer. -/
def applyEntry (acc : List Char) (e : Nat × Option Char) : List Char :=
  match e.2 with
  | some ch => if e.1 < acc.length then acc.set e.1 ch else acc
  | none => acc

theorem applyEntry_length (acc : List Char) (e : Nat × Option Char) :
    (applyEntry acc e).length = acc.length := by
  unfold applyEntry
  rcases e with ⟨p, _ | c⟩
  · rfl
  · dsimp only
    split <;> simp

theorem foldl_applyEntry_length (es : List (Nat × Option Char)) (acc : List Char) :
    (es.foldl applyEntry acc).length = acc.length := by
  induction es generalizing acc with
  | nil => rfl
  | cons e es ih => rw [List.foldl_cons, ih, applyEntry_length]

/-- Running the change-application loop on a serialized change list applies
exactly those changes in order. -/
theorem deltaApplyChanges_entries (es : List (Nat × Option Char)) :
    ∀ acc : List Char, (∀ e ∈ es, e.1 < 4294967296) →
      deltaApplyChanges es.length (es.flatMap deltaEntryBytes) acc =
        some (es.foldl applyEntry acc) := by
  induction es with
  | nil =>
    intro acc _
    rfl
  | cons e es ih =>
    intro acc hbound
    have hbe : e.1 < 4294967296 := hbound e (List.mem_cons_self e es)
    have hval : u32leVal (e.1 % 256) (e.1 / 256 % 256) (e.1 / 65536 % 256)
        (e.1 / 16777216 % 256) = e.1 := u32le_roundtrip e.1 hbe
    rcases e with ⟨p, _ | c⟩
    · simp only [List.length_cons, List.flatMap_cons, deltaEntryBytes, u32le,
        List.cons_append, List.nil_append]
      rw [deltaApplyChanges]
      simp only [if_pos rfl]
      rw [ih acc (fun e he => hbound e (List.mem_cons_of_mem _ he))]
      simp [applyEntry]
    · obtain ⟨h0, t0, hch⟩ : ∃ h0 t0, utf8EncodeCh c = h0 :: t0 := by
        have hpos := utf8EncodeCh_length_pos c
        rcases hx : utf8EncodeCh c with _ | ⟨h0, t0⟩
        · rw [hx] at hpos
          simp at hpos
        · exact ⟨h0, t0, rfl⟩
      simp only [List.length_cons, List.flatMap_cons, deltaEntryBytes, u32le,
        List.cons_append, List.nil_append]
      rw [hch]
      simp only [List.cons_append, List.length_cons]
      rw [deltaApplyChanges]
      have hnz : ¬ (t0.length + 1 = 0) := by omega
      rw [if_neg hnz]
      have hlen : ¬ ((h0 :: (t0 ++ es.flatMap deltaEntryBytes)).length < t0.length + 1) := by
        simp only [List.length_cons, List.length_append]
        omega
      rw [if_neg hlen]
      have htake : List.take (t0.length + 1) (h0 :: (t0 ++ es.flatMap deltaEntryBytes)) =
          h0 :: t0 := by
        simp only [List.take_succ_cons]
        rw [List.take_left]
      have hdrop : List.drop (t0.length + 1) (h0 :: (t0 ++ es.flatMap deltaEntryBytes)) =
          es.flatMap deltaEntryBytes := by
        simp only [List.drop_succ_cons]
        rw [List.drop_left]
      rw [htake, hdrop]
      have hdec : utf8Decode (h0 :: t0) = some [c] := by
        rw [← hch]
        exact utf8Decode_encodeCh c
      rw [hdec]
      dsimp only
      rw [hval]
      rw [ih _ (fun e he => hbound e (List.mem_cons_of_mem _ he))]
      simp [applyEntry]

theorem foldl_applyEntry_not_mem (es : List (Nat × Option Char)) (acc : List Char)
    (j : Nat) (hj : j ∉ es.map Prod.fst) :
    (es.foldl applyEntry acc)[j]? = acc[j]? := by
  induction es generalizing acc with
  | nil => rfl
  | cons e es ih =>
    simp only [List.map_cons, List.mem_cons, not_or] at hj
    rw [List.foldl_cons, ih _ hj.2]
    unfold applyEntry
    rcases e with ⟨p, _ | c⟩
    · rfl
    · dsimp only
      split
      · exact List.getElem?_set_ne (fun h => hj.1 h.symm)
      · rfl

theorem foldl_applyEntry_mem (es : List (Nat × Option Char)) (acc : List Char)
    (j : Nat) (ch : Char) (hnodup : (es.map Prod.fst).Nodup)
    (hmem : (j, some ch) ∈ es) (hj : j < acc.length) :
    (es.foldl applyEntry acc)[j]? = some ch := by
  obtain ⟨l₁, l₂, heq⟩ := List.append_of_mem hmem
  subst heq
  have hnotmem : j ∉ l₂.map Prod.fst := by
    have h2 : ((j, some ch) :: l₂).map Prod.fst |>.Nodup := by
      have := hnodup
      simp only [List.map_append, List.map_cons] at this
      exact (List.Nodup.of_append_right this)
    simp only [List.map_cons] at h2
    exact (List.nodup_cons.mp h2).1
  rw [List.foldl_append, List.foldl_cons]
  rw [foldl_applyEntry_not_mem _ _ _ hnotmem]
  have happ : applyEntry (l₁.foldl applyEntry acc) (j, some ch) =
      if j < (l₁.foldl applyEntry acc).length then
        (l₁.foldl applyEntry acc).set j ch
      else l₁.foldl applyEntry acc := rfl
  have hlen : j < (l₁.foldl applyEntry acc).length := by
    rw [foldl_applyEntry_length]
    exact hj
  rw [happ, if_pos hlen]
  exact List.getElem?_set_self hlen

theorem deltaDiffs_map_fst (curr prev : List Char) :
    (deltaDiffs curr prev).map Prod.fst =
      (List.range (max curr.length prev.length)).filter
        (fun i => decide (curr[i]? ≠ prev[i]?)) := by
  unfold deltaDiffs
  generalize List.range (max curr.length prev.length) = l
  induction l with
  | nil => rfl
  | cons i l ih =>
    simp only [List.filterMap_cons, List.filter_cons]
    by_cases h : curr[i]? ≠ prev[i]?
    · rw [if_pos h]
      simp only [List.map_cons, ih, decide_eq_true h, if_true]
    · rw [if_neg h]
      rw [ih]
      simp only [decide_eq_false h]
      rfl

theorem deltaDiffs_nodup_fst (curr prev : List Char) :
    ((deltaDiffs curr prev).map Prod.fst).Nodup := by
  rw [deltaDiffs_map_fst]
  exact List.Nodup.filter _ (List.nodup_range _)

theorem deltaDiffs_mem (curr prev : List Char) (j : Nat)
    (hj : j < max curr.length prev.length) (h : curr[j]? ≠ prev[j]?) :
    (j, curr[j]?) ∈ deltaDiffs curr prev := by
  unfold deltaDiffs
  rw [List.mem_filterMap]
  exact ⟨j, List.mem_range.mpr hj, by rw [if_pos h]⟩

theorem deltaDiffs_not_mem (curr prev : List Char) (j : Nat)
    (h : curr[j]? = prev[j]?) : j ∉ (deltaDiffs curr prev).map Prod.fst := by
  rw [deltaDiffs_map_fst]
  intro hmem
  rw [List.mem_filter] at hmem
  exact absurd h (by simpa using hmem.2)

/-- Applying the encoder's change list to the resized previous frame
reconstructs the current frame exactly. -/
theorem foldl_deltaDiffs (curr prev : List Char) :
    (deltaDiffs curr prev).foldl applyEntry (padTruncate prev curr.length) = curr := by
  apply List.ext_getElem?
  intro j
  have hflen : ((deltaDiffs curr prev).foldl applyEntry
      (padTruncate prev curr.length)).length = curr.length := by
    rw [foldl_applyEntry_length, padTruncate_length]
  by_cases hj : j < curr.length
  · by_cases heq : curr[j]? = prev[j]?
    · rw [foldl_applyEntry_not_mem _ _ _ (deltaDiffs_not_mem curr prev j heq)]
      have hjp : j < prev.length := by
        by_contra hge
        rw [List.getElem?_eq_getElem hj, List.getElem?_eq_none (by omega)] at heq
        exact Option.noConfusion heq
      unfold padTruncate
      rw [List.getElem?_append_left (by
        simp only [List.length_take]
        omega)]
      rw [List.getElem?_take_of_lt hj]
      exact heq.symm
    · rw [List.getElem?_eq_getElem hj] at heq ⊢
      rw [foldl_applyEntry_mem _ _ j (curr[j]) (deltaDiffs_nodup_fst curr prev)
        (by
          have := deltaDiffs_mem curr prev j (by omega) (by
            rw [List.getElem?_eq_getElem hj]
            exact heq)
          rw [List.getElem?_eq_getElem hj] at this
          exact this)
        (by rw [padTruncate_length]; exact hj)]
  · rw [List.getElem?_eq_none (by omega), List.getElem?_eq_none (by omega)]

theorem deltaDiffs_fst_lt (curr prev : List Char) :
    ∀ e ∈ deltaDiffs curr prev, e.1 < max curr.length prev.length := by
  intro e he
  unfold deltaDiffs at he
  rw [List.mem_filterMap] at he
  obtain ⟨i, hi, hfi⟩ := he
  split at hfi
  · cases hfi
    exact List.mem_range.mp hi
  · exact Option.noConfusion hfi

theorem deltaDiffs_length_le (curr prev : List Char) :
    (deltaDiffs curr prev).length ≤ max curr.length prev.length := by
  unfold deltaDiffs
  calc ((List.range (max curr.length prev.length)).filterMap _).length
      ≤ (List.range (max curr.length prev.length)).length :=
        List.length_filterMap_le _ _
    _ = max curr.length prev.length := List.length_range _

/-- Delta roundtrip, for any optional previous frame: decoding the encoding
of `curr` against the same previous frame returns `curr`, as long as both
character counts stay below `2^32` (the wire format's `u32` fields). -/
theorem deltaDecode_deltaEncode (curr : List Char) (prevOpt : Option (List Char))
    (hc : curr.length < 4294967296)
    (hp : (prevOpt.getD []).length < 4294967296) :
    deltaDecode (deltaEncode curr prevOpt) prevOpt = some curr := by
  have hcd : (deltaDiffs curr (prevOpt.getD [])).length < 4294967296 := by
    have := deltaDiffs_length_le curr (prevOpt.getD [])
    omega
  unfold deltaEncode deltaDecode
  simp only [u32le, List.cons_append, List.nil_append]
  rw [u32le_roundtrip curr.length hc,
    u32le_roundtrip (deltaDiffs curr (prevOpt.getD [])).length hcd]
  rw [deltaApplyChanges_entries _ _
    (fun e he => by
      have := deltaDiffs_fst_lt curr (prevOpt.getD []) e he
      omega)]
  rw [foldl_deltaDiffs]

/-- The change-application loop never changes the buffer length. -/
theorem deltaApplyChanges_length_eq (cnt : Nat) :
    ∀ (data : List Nat) (acc out : List Char),
      deltaApplyChanges cnt data acc = some out → out.length = acc.length := by
  induction cnt with
  | zero =>
    intro data acc out h
    simp only [deltaApplyChanges] at h
    cases h
    rfl
  | succ n ih =>
    intro data acc out h
    rcases data with _ | ⟨p0, _ | ⟨p1, _ | ⟨p2, _ | ⟨p3, _ | ⟨l, rest⟩⟩⟩⟩⟩ <;>
      rw [deltaApplyChanges] at h <;>
      first
        | exact Option.noConfusion h
        | skip
    by_cases h0 : l = 0
    · rw [if_pos h0] at h
      exact ih rest acc out h
    · rw [if_neg h0] at h
      by_cases h1 : rest.length < l
      · rw [if_pos h1] at h
        exact Option.noConfusion h
      · rw [if_neg h1] at h
        rcases hdec : utf8Decode (rest.take l) with _ | ⟨_ | ⟨ch, tl⟩⟩ <;>
          rw [hdec] at h
        · exact Option.noConfusion h
        · exact Option.noConfusion h
        · have := ih (rest.drop l) _ out h
          rw [this]
          split
          · exact List.length_set _ _ _
          · rfl

/-- The current-length field of a Delta payload (its first four bytes,
little-endian), zero when the payload is shorter than four bytes. -/
def lenField : List Nat → Nat
  | b0 :: b1 :: b2 :: b3 :: _ => u32leVal b0 b1 b2 b3
  | _ => 0

/-- Core of claim C6: a successful Delta decode has exactly the length the
payload's current-length field declares, and the previous frame enters the
computation only through its truncation/padding to that length. -/
theorem deltaDecode_length_eq (data : List Nat) (prevOpt : Option (List Char))
    (out : List Char) (h : deltaDecode data prevOpt = some out) :
    out.length = lenField data ∧
      deltaDecode data (some (padTruncate (prevOpt.getD []) (lenField data))) = some out := by
  rcases data with _ | ⟨b0, _ | ⟨b1, _ | ⟨b2, _ | ⟨b3, _ |
    ⟨c0, _ | ⟨c1, _ | ⟨c2, _ | ⟨c3, rest⟩⟩⟩⟩⟩⟩⟩⟩
  · exact Option.noConfusion h
  · exact Option.noConfusion h
  · exact Option.noConfusion h
  · exact Option.noConfusion h
  · exact Option.noConfusion h
  · exact Option.noConfusion h
  · exact Option.noConfusion h
  · exact Option.noConfusion h
  · have hred : deltaDecode (b0 :: b1 :: b2 :: b3 :: c0 :: c1 :: c2 :: c3 :: rest) prevOpt =
        deltaApplyChanges (u32leVal c0 c1 c2 c3) rest
          (padTruncate (prevOpt.getD []) (u32leVal b0 b1 b2 b3)) := rfl
    have hlf : lenField (b0 :: b1 :: b2 :: b3 :: c0 :: c1 :: c2 :: c3 :: rest) =
        u32leVal b0 b1 b2 b3 := rfl
    rw [hred] at h
    rw [hlf]
    constructor
    · rw [deltaApplyChanges_length_eq _ _ _ _ h, padTruncate_length]
    · have hred2 : deltaDecode (b0 :: b1 :: b2 :: b3 :: c0 :: c1 :: c2 :: c3 :: rest)
          (some (padTruncate (prevOpt.getD []) (u32leVal b0 b1 b2 b3))) =
          deltaApplyChanges (u32leVal c0 c1 c2 c3) rest
            (padTruncate (padTruncate (prevOpt.getD []) (u32leVal b0 b1 b2 b3))
              (u32leVal b0 b1 b2 b3)) := rfl
      rw [hred2, padTruncate_idem]
      exact h

/-- One step of the Adler-32 checksum state `(s1, s2)`. -/
def adlerStep (s : Nat × Nat) (b : Nat) : Nat × Nat :=
  ((s.1 + b) % 65521, (s.2 + (s.1 + b) % 65521) % 65521)

/-- Adler-32 state of a byte sequence, starting from `(1, 0)` (RFC 1950). -/
def adler32 (bytes : List Nat) : Nat × Nat := bytes.foldl adlerStep (1, 0)

/-- The four big-endian checksum bytes that close a zlib stream. -/
def adlerBytes (bytes : List Nat) : List Nat :=
  [(adler32 bytes).2 / 256 % 256, (adler32 bytes).2 % 256,
   (adler32 bytes).1 / 256 % 256, (adler32 bytes).1 % 256]

/-- DEFLATE stored (uncompressed) blocks covering `data`: chunks of at most
65535 bytes, each prefixed by a block-header byte (BFINAL plus BTYPE=00), a
`u16` length and its one's complement.  Models the `flate2` zlib container
used by `ZlibCodec` (an external crate): this encoder emits a valid
RFC 1950/1951 stream at the stored level; byte-for-byte equality with
`flate2`'s Huffman output is not modelled, only the container structure and
losslessness the codec relies on.  The fuel bounds the number of chunks and
always suffices at the call sites. -/
def storedBlocks : Nat → List Nat → List Nat
  | 0, data => 1 :: (u16le data.length ++ u16le (65535 - data.length) ++ data)
  | fuel + 1, data =>
    if data.length ≤ 65535 then
      1 :: (u16le data.length ++ u16le (65535 - data.length) ++ data)
    else
      0 :: (u16le 65535 ++ u16le 0 ++ data.take 65535 ++
        storedBlocks fuel (data.drop 65535))

/-- `ZlibCodec::encode` output layout: the two-byte zlib header, the stored
blocks, then the Adler-32 checksum of the payload. -/
def zlibCompress (data : List Nat) : List Nat :=
  120 :: 1 :: (storedBlocks data.length data ++ adlerBytes data)

/-- Parse DEFLATE stored blocks, accumulating output and checking the final
Adler-32 checksum; fails on any structural violation (unknown block type,
length/complement mismatch, truncation, checksum mismatch, trailing
garbage), as `flate2`'s decoder does.  The fuel bounds the block count;
each block consumes at least five bytes, so fuel equal to the stream length
always suffices. -/
def parseStoredBlocks : Nat → List Nat → List Nat → Option (List Nat)
  | _, [], _ => none
  | 0, _ :: _, _ => none
  | fuel + 1, bhdr :: rest, acc =>
    if bhdr / 2 % 4 = 0 then
      match rest with
      | l0 :: l1 :: n0 :: n1 :: rest2 =>
        if n0 + 256 * n1 = 65535 - (l0 + 256 * l1) then
          if rest2.length < l0 + 256 * l1 then none
          else
            if bhdr % 2 = 1 then
              if rest2.drop (l0 + 256 * l1) =
                  adlerBytes (acc ++ rest2.take (l0 + 256 * l1)) then
                some (acc ++ rest2.take (l0 + 256 * l1))
              else none
            else
              parseStoredBlocks fuel (rest2.drop (l0 + 256 * l1))
                (acc ++ rest2.take (l0 + 256 * l1))
        else none
      | _ => none
    else none

/-- `ZlibCodec::decode`'s decompression stage: check the zlib header
(method 8, window bits in range, header checksum multiple of 31), then
inflate the blocks and verify the trailing checksum. -/
def zlibDecompress (data : List Nat) : Option (List Nat) :=
  match data with
  | cmf :: flg :: rest =>
    if cmf % 16 = 8 ∧ cmf / 16 ≤ 7 ∧ (cmf * 256 + flg) % 31 = 0 then
      parseStoredBlocks data.length rest []
    else none
  | _ => none

theorem storedBlocks_length_ge (fuel : Nat) :
    ∀ data : List Nat, data.length ≤ (storedBlocks fuel data).length := by
  induction fuel with
  | zero =>
    intro data
    simp [storedBlocks, u16le]
    omega
  | succ fuel ih =>
    intro data
    rw [storedBlocks]
    split
    · simp [u16le]
      omega
    · have := ih (data.drop 65535)
      simp only [List.length_cons, List.length_append, List.length_take,
        List.length_drop, u16le_length] at *
      omega

theorem parse_final_block (data acc : List Nat) (df : Nat) (hlen : data.length ≤ 65535) :
    parseStoredBlocks (df + 1)
      (1 :: (u16le data.length ++ u16le (65535 - data.length) ++ data) ++
        adlerBytes (acc ++ data)) acc = some (acc ++ data) := by
  simp only [u16le, List.cons_append, List.nil_append, List.append_assoc]
  rw [parseStoredBlocks]
  rw [if_pos (by norm_num)]
  have hL : data.length % 256 + 256 * (data.length / 256 % 256) = data.length := by
    omega
  have hN : (65535 - data.length) % 256 + 256 * ((65535 - data.length) / 256 % 256) =
      65535 - data.length := by
    omega
  simp only [hL, hN, if_true]
  have hlen2 : ¬ ((data ++ adlerBytes (acc ++ data)).length < data.length) := by
    simp only [List.length_append]
    omega
  rw [List.drop_left, List.take_left]
  rw [if_neg hlen2]
  rw [if_pos rfl]

theorem parseStoredBlocks_roundtrip (ef : Nat) :
    ∀ (data acc : List Nat) (df : Nat), data.length ≤ 65535 * (ef + 1) →
      ef + 1 ≤ df →
      parseStoredBlocks df (storedBlocks ef data ++ adlerBytes (acc ++ data)) acc =
        some (acc ++ data) := by
  induction ef with
  | zero =>
    intro data acc df hlen hdf
    rcases df with _ | df
    · omega
    · rw [storedBlocks]
      exact parse_final_block data acc df (by omega)
  | succ ef ih =>
    intro data acc df hlen hdf
    rcases df with _ | df
    · omega
    · rw [storedBlocks]
      by_cases hsmall : data.length ≤ 65535
      · rw [if_pos hsmall]
        exact parse_final_block data acc df hsmall
      · rw [if_neg hsmall]
        simp only [u16le, List.cons_append, List.nil_append, List.append_assoc]
        rw [parseStoredBlocks]
        rw [if_pos (by norm_num)]
        have h655 : (65535 : Nat) % 256 + 256 * (65535 / 256 % 256) = 65535 := by
          norm_num
        have hz : (0 : Nat) % 256 + 256 * (0 / 256 % 256) = 65535 - 65535 := by
          norm_num
        simp only [h655]
        rw [if_pos (by norm_num)]
        have hlen2 : ¬ ((data.take 65535 ++ (storedBlocks ef (data.drop 65535) ++
            adlerBytes (acc ++ data))).length < 65535) := by
          simp only [List.length_append, List.length_take]
          omega
        rw [if_neg hlen2]
        have htl : (data.take 65535).length = 65535 := by
          simp only [List.length_take]
          omega
        have hdrop : (data.take 65535 ++ (storedBlocks ef (data.drop 65535) ++
            adlerBytes (acc ++ data))).drop 65535 =
            storedBlocks ef (data.drop 65535) ++ adlerBytes (acc ++ data) :=
          List.drop_left' htl
        have htake : (data.take 65535 ++ (storedBlocks ef (data.drop 65535) ++
            adlerBytes (acc ++ data))).take 65535 = data.take 65535 :=
          List.take_left' htl
        rw [hdrop, htake]
        have hsplit : acc ++ data = (acc ++ data.take 65535) ++ data.drop 65535 := by
          rw [List.append_assoc, List.take_append_drop]
        rw [hsplit]
        exact ih (data.drop 65535) (acc ++ data.take 65535) df
          (by simp only [List.length_drop]; omega) (by omega)

/-- Zlib container roundtrip: decompressing the compressed form of any byte
sequence gives it back. -/
theorem zlibDecompress_compress (d : List Nat) :
    zlibDecompress (zlibCompress d) = some d := by
  have hred : zlibDecompress (zlibCompress d) =
      parseStoredBlocks (storedBlocks d.length d ++ adlerBytes d).length.succ.succ
        (storedBlocks d.length d ++ adlerBytes d) [] := rfl
  rw [hred]
  have h0 : adlerBytes d = adlerBytes ([] ++ d) := by rw [List.nil_append]
  rw [h0]
  have := storedBlocks_length_ge d.length d
  rw [parseStoredBlocks_roundtrip d.length d [] _ (by omega)
    (by
      simp only [List.length_append, Nat.succ_eq_add_one]
      omega)]
  rw [List.nil_append]

/-- `ZlibCodec::encode` (`codec.rs`): compress the frame's UTF-8 bytes. -/
def zlibEncode (current : List Char) : List Nat := zlibCompress (utf8EncodeStr current)

/-- `ZlibCodec::decode`: decompress, then `String::from_utf8`. -/
def zlibDecode (data : List Nat) : Option (List Char) :=
  (zlibDecompress data).bind utf8Decode

/-- `ZlibCodec` roundtrip. -/
theorem zlibDecode_encode (s : List Char) : zlibDecode (zlibEncode s) = some s := by
  unfold zlibDecode zlibEncode
  rw [zlibDecompress_compress]
  exact utf8Decode_encodeStr s

/-- Encoding under one concrete strategy, or under `Auto`
(`FrameEncoder::encode` of the strategy returned by `get_encoder`): all
encoders succeed unconditionally in the source (their `Result` is always
`Ok`), so this is total.  `HybridEncoder::encode` returns only the data of
`encode_best`, discarding the chosen kind. -/
def encodeK : CompressionType → List Char → Option (List Char) → List Nat
  | .None, current, _ => noneEncode current
  | .Rle, current, _ => rleEncode current
  | .Delta, current, previous => deltaEncode current previous
  | .Zlib, current, _ => zlibEncode current
  | .Auto, current, previous =>
    -- HybridEncoder::encode = encode_best(..).data; defined below via
    -- encodeBest, inlined here to keep the dispatch total.
    (let noneResult := noneEncode current
     let rleResult := rleEncode current
     let deltaResult := if previous.isSome then deltaEncode current previous else []
     let zlibResult := zlibEncode current
     let best0 := (CompressionType.None, noneResult)
     let best1 := if rleResult.length < best0.2.length then
         (CompressionType.Rle, rleResult) else best0
     let best2 := if deltaResult ≠ [] ∧ deltaResult.length < best1.2.length then
         (CompressionType.Delta, deltaResult) else best1
     if zlibResult.length < best2.2.length then
         (CompressionType.Zlib, zlibResult) else best2).2

/-- `HybridEncoder::encode_best` (`codec.rs`): compute all four encodings
(Delta only when a previous frame exists), pick the smallest with strict
comparisons in the order None, Rle, Delta, Zlib, and record the chosen
kind; `frame_number` is zero (set by the caller) and `is_keyframe` is
`previous.is_none()`. -/
def encodeBest (current : List Char) (previous : Option (List Char)) : CompressedFrame :=
  let noneResult := noneEncode current
  let rleResult := rleEncode current
  let deltaResult := if previous.isSome then deltaEncode current previous else []
  let zlibResult := zlibEncode current
  let best0 := (CompressionType.None, noneResult)
  let best1 := if rleResult.length < best0.2.length then
      (CompressionType.Rle, rleResult) else best0
  let best2 := if deltaResult ≠ [] ∧ deltaResult.length < best1.2.length then
      (CompressionType.Delta, deltaResult) else best1
  let best := if zlibResult.length < best2.2.length then
      (CompressionType.Zlib, zlibResult) else best2
  { compression_type := best.1, data := best.2, frame_number := 0,
    is_keyframe := previous.isNone }

theorem encodeK_auto (current : List Char) (previous : Option (List Char)) :
    encodeK .Auto current previous = (encodeBest current previous).data := rfl

/-- Decoding under a strategy tag (`FrameEncoder::decode` of the strategy
returned by `get_encoder`).  `HybridEncoder::decode` does not know which
strategy produced the payload and falls back to zlib, as the source
comments note. -/
def decodeK : CompressionType → List Nat → Option (List Char) → Option (List Char)
  | .None, data, _ => noneDecode data
  | .Rle, data, _ => rleDecode data
  | .Delta, data, previous => deltaDecode data previous
  | .Zlib, data, _ => zlibDecode data
  | .Auto, data, _ => zlibDecode data

/-- `decode_frame` (`codec.rs`): dispatch on the frame's embedded
compression type. -/
def decodeFrame (frame : CompressedFrame) (previous : Option (List Char)) :
    Option (List Char) :=
  decodeK frame.compression_type frame.data previous

/-- Every concrete (non-`Auto`) strategy decodes its own no-previous
encoding back to the original frame, provided the frame has fewer than
`2^32` characters (only the Delta wire format carries `u32` fields; the
other three have no length bound at all). -/
theorem decodeK_encodeK_none (t : CompressionType) (s : List Char)
    (ht : t ≠ .Auto) (hlen : s.length < 4294967296) :
    decodeK t (encodeK t s none) none = some s := by
  cases t with
  | None => exact noneDecode_encode s
  | Rle => exact rleDecode_encode s
  | Delta =>
    exact deltaDecode_deltaEncode s none hlen (by simp)
  | Zlib => exact zlibDecode_encode s
  | Auto => exact absurd rfl ht

/-- The state of `FrameBatcher` (`monegle-sender/src/batcher.rs`). -/
structure BatcherState where
  stream_id : List Nat
  metadata : StreamMetadata
  frames_per_batch : Nat
  max_batch_size : Nat
  keyframe_interval : Nat
  compression_type : CompressionType
  current_batch : List CompressedFrame
  sequence_counter : Nat
  frame_counter : Nat
  previous_frame : Option (List Char)
deriving DecidableEq, Repr

/-- `FrameBatcher::new`: the target frame count and compression type are
taken from the metadata; counters start at zero with no pending frames and
no previous frame. -/
def newBatcher (stream_id : List Nat) (metadata : StreamMetadata)
    (max_batch_size keyframe_interval : Nat) : BatcherState where
  stream_id := stream_id
  metadata := metadata
  frames_per_batch := metadata.frames_per_batch
  max_batch_size := max_batch_size
  keyframe_interval := keyframe_interval
  compression_type := metadata.compression_type
  current_batch := []
  sequence_counter := 0
  frame_counter := 0
  previous_frame := none

/-- The batch a `FrameBatcher` would build from a frame list right now
(used both by `estimate_batch_size` and by `finalize_batch`). -/
def mkBatch (st : BatcherState) (frames : List CompressedFrame) (ts : Nat) : FrameBatch where
  stream_id := st.stream_id
  sequence := st.sequence_counter
  metadata := st.metadata
  frames := frames
  timestamp := ts

/-- `FrameBatcher::add_frame`'s keyframe test:
`frame_counter % keyframe_interval == 0`.  (Rust panics when the interval
is zero; the theorems below assume a positive interval.) -/
def batcherIsKey (st : BatcherState) : Bool :=
  st.frame_counter % st.keyframe_interval == 0

/-- `FrameBatcher::compress_frame`: encode under the configured strategy
and stamp the frame with that same configured strategy tag, the current
global frame counter and the keyframe flag. -/
def compressFrame (st : BatcherState) (frame : List Char)
    (previous : Option (List Char)) (isKey : Bool) : CompressedFrame where
  compression_type := st.compression_type
  data := encodeK st.compression_type frame previous
  frame_number := st.frame_counter
  is_keyframe := isKey

/-- `FrameBatcher::finalize_batch`: emit nothing on an empty pending list,
otherwise stamp the batch with the current sequence number and timestamp,
bump the sequence counter and clear the pending list. -/
def finalizeBatch (st : BatcherState) (ts : Nat) : BatcherState × Option FrameBatch :=
  if st.current_batch = [] then (st, none)
  else
    ({st with sequence_counter := st.sequence_counter + 1, current_batch := []},
      some (mkBatch st st.current_batch ts))

/-- The tail of `add_frame`: finalize when the pending list has reached the
target frame count. -/
def addFinalize (st : BatcherState) (ts : Nat) : BatcherState × Option FrameBatch :=
  if st.current_batch.length ≥ st.frames_per_batch then finalizeBatch st ts
  else (st, none)

/-- The compressed frame `add_frame` builds: keyframes encode with no
previous reference, others against the stored previous plaintext frame. -/
def batcherCompressed (st : BatcherState) (frame : List Char) : CompressedFrame :=
  compressFrame st frame (if batcherIsKey st then none else st.previous_frame)
    (batcherIsKey st)

/-- `FrameBatcher::add_frame` (`batcher.rs`): compress (keyframes encode
with no previous reference), remember the plaintext frame, then either
append to a non-empty pending list with a serialized-size check that may
defer the new frame and emit the accumulated batch, or start a new pending
list unconditionally; finally finalize when the pending list reaches the
target frame count.  `ts` stands for the wall clock read by the
`SystemTime::now()` calls (the serialized size does not depend on it).
The Rust code tests `!current_batch.is_empty()` first and updates
`previous_frame` before the size check; the branches here are the same
three outcomes with the record update distributed into each, and the size
check reads only fields the update does not touch. -/
def addFrame (st : BatcherState) (frame : List Char) (ts : Nat) :
    BatcherState × Option FrameBatch :=
  if st.current_batch = [] then
    addFinalize
      {st with
        previous_frame := some frame,
        current_batch := [batcherCompressed st frame],
        frame_counter := st.frame_counter + 1} ts
  else if st.max_batch_size <
      (mkBatch st (st.current_batch ++ [batcherCompressed st frame]) ts).sizeBytes then
    ({st with
        previous_frame := some frame,
        sequence_counter := st.sequence_counter + 1,
        current_batch := [batcherCompressed st frame],
        frame_counter := st.frame_counter + 1},
      some (mkBatch st st.current_batch ts))
  else
    addFinalize
      {st with
        previous_frame := some frame,
        current_batch := st.current_batch ++ [batcherCompressed st frame],
        frame_counter := st.frame_counter + 1} ts

/-- `FrameBatcher::flush`: force-finalize the pending list. -/
def flushBatcher (st : BatcherState) (ts : Nat) : BatcherState × Option FrameBatch :=
  finalizeBatch st ts

/-- Feed a sequence of `(frame, timestamp)` pairs through `add_frame`,
collecting every emitted batch in order. -/
def runBatcher : BatcherState → List (List Char × Nat) →
    BatcherState × List FrameBatch
  | st, [] => (st, [])
  | st, (f, ts) :: rest =>
    let r := addFrame st f ts
    let rr := runBatcher r.1 rest
    (rr.1, r.2.toList ++ rr.2)

/-- Feed all frames, then `flush`. -/
def runBatcherFlush (st : BatcherState) (inputs : List (List Char × Nat))
    (tsf : Nat) : BatcherState × List FrameBatch :=
  let r := runBatcher st inputs
  let fin := flushBatcher r.1 tsf
  (fin.1, r.2 ++ fin.2.toList)

theorem mkBatch_sizeBytes (st : BatcherState) (fs : List CompressedFrame) (ts : Nat) :
    (mkBatch st fs ts).sizeBytes =
      FrameBatch.sizeBytes ⟨st.stream_id, 0, st.metadata, fs, 0⟩ := by
  unfold mkBatch
  exact sizeBytes_congr st.stream_id st.metadata fs st.sequence_counter 0 ts 0

/-- The size invariant carried by the pending list: any pending list of at
least two frames already passed the serialized-size check. -/
def SizeInv (st : BatcherState) : Prop :=
  2 ≤ st.current_batch.length →
    FrameBatch.sizeBytes ⟨st.stream_id, 0, st.metadata, st.current_batch, 0⟩ ≤
      st.max_batch_size


theorem addFinalize_cases (st : BatcherState) (ts : Nat) :
    addFinalize st ts = (st, none) ∨
    (st.current_batch ≠ [] ∧
      addFinalize st ts =
        ({st with sequence_counter := st.sequence_counter + 1, current_batch := []},
          some (mkBatch st st.current_batch ts))) := by
  unfold addFinalize finalizeBatch
  by_cases h1 : st.current_batch.length ≥ st.frames_per_batch
  · rw [if_pos h1]
    by_cases h2 : st.current_batch = []
    · rw [if_pos h2]
      left
      rfl
    · rw [if_neg h2]
      right
      exact ⟨h2, rfl⟩
  · rw [if_neg h1]
    left
    rfl

/-- One `add_frame` step: configuration fields persist, the size invariant
persists, and every emitted batch is non-empty and — when it holds at
least two frames — within the byte budget. -/
theorem addFrame_step (st : BatcherState) (f : List Char) (ts : Nat)
    (hinv : SizeInv st) :
    SizeInv (addFrame st f ts).1 ∧
    (addFrame st f ts).1.stream_id = st.stream_id ∧
    (addFrame st f ts).1.metadata = st.metadata ∧
    (addFrame st f ts).1.max_batch_size = st.max_batch_size ∧
    ∀ b, (addFrame st f ts).2 = some b → b.frames ≠ [] ∧
      (2 ≤ b.frames.length → b.sizeBytes ≤ st.max_batch_size) := by
  by_cases h1 : st.current_batch = []
  · have heq : addFrame st f ts = addFinalize
        {st with
          previous_frame := some f,
          current_batch := [batcherCompressed st f],
          frame_counter := st.frame_counter + 1} ts := by
      unfold addFrame
      rw [if_pos h1]
    rw [heq]
    rcases addFinalize_cases
        {st with
          previous_frame := some f,
          current_batch := [batcherCompressed st f],
          frame_counter := st.frame_counter + 1} ts with hfin | ⟨_, hfin⟩ <;>
      rw [hfin]
    · refine ⟨?_, rfl, rfl, rfl, ?_⟩
      · intro h2
        simp at h2
      · intro b hb
        exact Option.noConfusion hb
    · refine ⟨?_, rfl, rfl, rfl, ?_⟩
      · intro h2
        simp at h2
      · intro b hb
        cases hb
        refine ⟨by simp [mkBatch], ?_⟩
        intro h2
        simp [mkBatch] at h2
  · have hcb2 : st.current_batch ++ [batcherCompressed st f] ≠ [] := by simp
    by_cases h2 : st.max_batch_size <
        (mkBatch st (st.current_batch ++ [batcherCompressed st f]) ts).sizeBytes
    · have heq : addFrame st f ts =
          ({st with
              previous_frame := some f,
              sequence_counter := st.sequence_counter + 1,
              current_batch := [batcherCompressed st f],
              frame_counter := st.frame_counter + 1},
            some (mkBatch st st.current_batch ts)) := by
        unfold addFrame
        rw [if_neg h1, if_pos h2]
      rw [heq]
      refine ⟨?_, rfl, rfl, rfl, ?_⟩
      · intro hlen
        simp at hlen
      · intro b hb
        cases hb
        refine ⟨by simpa [mkBatch] using h1, ?_⟩
        intro hlen
        have : (mkBatch st st.current_batch ts).sizeBytes =
            FrameBatch.sizeBytes ⟨st.stream_id, 0, st.metadata, st.current_batch, 0⟩ :=
          mkBatch_sizeBytes st st.current_batch ts
        rw [this]
        exact hinv (by simpa [mkBatch] using hlen)
    · have heq : addFrame st f ts = addFinalize
          {st with
            previous_frame := some f,
            current_batch := st.current_batch ++ [batcherCompressed st f],
            frame_counter := st.frame_counter + 1} ts := by
        unfold addFrame
        rw [if_neg h1, if_neg h2]
      rw [heq]
      have hfit : FrameBatch.sizeBytes
          ⟨st.stream_id, 0, st.metadata,
            st.current_batch ++ [batcherCompressed st f], 0⟩ ≤ st.max_batch_size := by
        rw [← mkBatch_sizeBytes st _ ts]
        omega
      rcases addFinalize_cases
          {st with
            previous_frame := some f,
            current_batch := st.current_batch ++ [batcherCompressed st f],
            frame_counter := st.frame_counter + 1} ts with hfin | ⟨_, hfin⟩ <;>
        rw [hfin]
      · refine ⟨?_, rfl, rfl, rfl, ?_⟩
        · intro _
          exact hfit
        · intro b hb
          exact Option.noConfusion hb
      · refine ⟨?_, rfl, rfl, rfl, ?_⟩
        · intro hlen
          simp at hlen
        · intro b hb
          cases hb
          refine ⟨by simpa [mkBatch] using hcb2, ?_⟩
          intro _
          have : (mkBatch
              {st with
                previous_frame := some f,
                current_batch := st.current_batch ++ [batcherCompressed st f],
                frame_counter := st.frame_counter + 1}
              (st.current_batch ++ [batcherCompressed st f]) ts).sizeBytes =
              FrameBatch.sizeBytes ⟨st.stream_id, 0, st.metadata,
                st.current_batch ++ [batcherCompressed st f], 0⟩ :=
            mkBatch_sizeBytes _ _ ts
          rw [this]
          exact hfit

theorem finalizeBatch_emit (st : BatcherState) (ts : Nat) (b : FrameBatch)
    (h : (finalizeBatch st ts).2 = some b) :
    b = mkBatch st st.current_batch ts ∧ st.current_batch ≠ [] := by
  unfold finalizeBatch at h
  by_cases hcb : st.current_batch = []
  · rw [if_pos hcb] at h
    exact Option.noConfusion h
  · rw [if_neg hcb] at h
    cases h
    exact ⟨rfl, hcb⟩

theorem runBatcher_step (inputs : List (List Char × Nat)) :
    ∀ st : BatcherState, SizeInv st →
      SizeInv (runBatcher st inputs).1 ∧
      (runBatcher st inputs).1.stream_id = st.stream_id ∧
      (runBatcher st inputs).1.metadata = st.metadata ∧
      (runBatcher st inputs).1.max_batch_size = st.max_batch_size ∧
      ∀ b ∈ (runBatcher st inputs).2, b.frames ≠ [] ∧
        (2 ≤ b.frames.length → b.sizeBytes ≤ st.max_batch_size) := by
  induction inputs with
  | nil =>
    intro st hinv
    exact ⟨hinv, rfl, rfl, rfl, fun b hb => absurd hb (by simp [runBatcher])⟩
  | cons p rest ih =>
    intro st hinv
    rcases p with ⟨f, ts⟩
    obtain ⟨hinv', hsid, hmd, hmax, hemit⟩ := addFrame_step st f ts hinv
    obtain ⟨ihinv, ihsid, ihmd, ihmax, ihemit⟩ := ih (addFrame st f ts).1 hinv'
    have hrun : runBatcher st ((f, ts) :: rest) =
        ((runBatcher (addFrame st f ts).1 rest).1,
          (addFrame st f ts).2.toList ++ (runBatcher (addFrame st f ts).1 rest).2) := rfl
    rw [hrun]
    refine ⟨ihinv, by rw [ihsid, hsid], by rw [ihmd, hmd], by rw [ihmax, hmax], ?_⟩
    intro b hb
    rw [List.mem_append] at hb
    rcases hb with hb | hb
    · rcases hopt : (addFrame st f ts).2 with _ | b'
      · rw [hopt] at hb
        simp at hb
      · rw [hopt] at hb
        simp only [Option.toList_some, List.mem_singleton] at hb
        subst hb
        exact hemit b hopt
    · have := ihemit b hb
      rw [hmax] at this
      exact this

/-- Every batch emitted by a full batcher run (including the final flush)
is non-empty, and within the byte budget whenever it holds at least two
frames. -/
theorem runBatcherFlush_all (st : BatcherState) (inputs : List (List Char × Nat))
    (tsf : Nat) (hinv : SizeInv st) :
    ∀ b ∈ (runBatcherFlush st inputs tsf).2, b.frames ≠ [] ∧
      (2 ≤ b.frames.length → b.sizeBytes ≤ st.max_batch_size) := by
  obtain ⟨hinv', hsid, hmd, hmax, hemit⟩ := runBatcher_step inputs st hinv
  intro b hb
  unfold runBatcherFlush at hb
  simp only [List.mem_append] at hb
  rcases hb with hb | hb
  · exact hemit b hb
  · rcases hopt : (flushBatcher (runBatcher st inputs).1 tsf).2 with _ | b'
    · rw [hopt] at hb
      simp at hb
    · rw [hopt] at hb
      simp only [Option.toList_some, List.mem_singleton] at hb
      subst hb
      obtain ⟨hbeq, hne⟩ := finalizeBatch_emit _ tsf b hopt
      subst hbeq
      refine ⟨by simpa [mkBatch] using hne, ?_⟩
      intro h2
      have hsz := mkBatch_sizeBytes (runBatcher st inputs).1
        (runBatcher st inputs).1.current_batch tsf
      rw [hsz, ← hmax]
      exact hinv' (by simpa [mkBatch] using h2)

/-- What claim C8 needs of a compressed frame, relative to the stream of
original frames `g` (indexed by global frame number): the frame carries
the configured compression tag, its keyframe flag matches the interval
test, and a keyframe's payload is the no-previous-reference encoding of
the original frame with its number. -/
def KeyOK (t : CompressionType) (k : Nat) (g : Nat → Option (List Char))
    (cf : CompressedFrame) : Prop :=
  cf.compression_type = t ∧
  cf.is_keyframe = (cf.frame_number % k == 0) ∧
  (cf.frame_number % k = 0 →
    ∃ fr, g cf.frame_number = some fr ∧ cf.data = encodeK t fr none)

theorem batcherCompressed_keyOK (t : CompressionType) (k : Nat)
    (g : Nat → Option (List Char)) (st : BatcherState) (f : List Char)
    (ht : st.compression_type = t) (hk : st.keyframe_interval = k)
    (hg : g st.frame_counter = some f) :
    KeyOK t k g (batcherCompressed st f) := by
  unfold KeyOK batcherCompressed compressFrame batcherIsKey
  refine ⟨ht, by rw [hk], ?_⟩
  intro hmul
  refine ⟨f, hg, ?_⟩
  dsimp only at hmul ⊢
  have hbeq : (st.frame_counter % st.keyframe_interval == 0) = true := by
    rw [Nat.beq_eq_true_eq, hk]
    exact hmul
  rw [hbeq, if_pos rfl, ht]

theorem addFrame_keyOK (t : CompressionType) (k : Nat)
    (g : Nat → Option (List Char)) (st : BatcherState) (f : List Char) (ts : Nat)
    (ht : st.compression_type = t) (hk : st.keyframe_interval = k)
    (hg : g st.frame_counter = some f)
    (hpend : ∀ cf ∈ st.current_batch, KeyOK t k g cf) :
    (∀ cf ∈ (addFrame st f ts).1.current_batch, KeyOK t k g cf) ∧
    (∀ b, (addFrame st f ts).2 = some b → ∀ cf ∈ b.frames, KeyOK t k g cf) ∧
    (addFrame st f ts).1.frame_counter = st.frame_counter + 1 ∧
    (addFrame st f ts).1.compression_type = st.compression_type ∧
    (addFrame st f ts).1.keyframe_interval = st.keyframe_interval := by
  have hc := batcherCompressed_keyOK t k g st f ht hk hg
  by_cases h1 : st.current_batch = []
  · have heq : addFrame st f ts = addFinalize
        {st with
          previous_frame := some f,
          current_batch := [batcherCompressed st f],
          frame_counter := st.frame_counter + 1} ts := by
      unfold addFrame
      rw [if_pos h1]
    rw [heq]
    rcases addFinalize_cases
        {st with
          previous_frame := some f,
          current_batch := [batcherCompressed st f],
          frame_counter := st.frame_counter + 1} ts with hfin | ⟨_, hfin⟩ <;>
      rw [hfin]
    · refine ⟨?_, ?_, rfl, rfl, rfl⟩
      · intro cf hcf
        simp only [List.mem_singleton] at hcf
        subst hcf
        exact hc
      · intro b hb
        exact Option.noConfusion hb
    · refine ⟨?_, ?_, rfl, rfl, rfl⟩
      · intro cf hcf
        simp at hcf
      · intro b hb
        cases hb
        intro cf hcf
        simp only [mkBatch, List.mem_singleton] at hcf
        subst hcf
        exact hc
  · by_cases h2 : st.max_batch_size <
        (mkBatch st (st.current_batch ++ [batcherCompressed st f]) ts).sizeBytes
    · have heq : addFrame st f ts =
          ({st with
              previous_frame := some f,
              sequence_counter := st.sequence_counter + 1,
              current_batch := [batcherCompressed st f],
              frame_counter := st.frame_counter + 1},
            some (mkBatch st st.current_batch ts)) := by
        unfold addFrame
        rw [if_neg h1, if_pos h2]
      rw [heq]
      refine ⟨?_, ?_, rfl, rfl, rfl⟩
      · intro cf hcf
        simp only [List.mem_singleton] at hcf
        subst hcf
        exact hc
      · intro b hb
        cases hb
        intro cf hcf
        simp only [mkBatch] at hcf
        exact hpend cf hcf
    · have heq : addFrame st f ts = addFinalize
          {st with
            previous_frame := some f,
            current_batch := st.current_batch ++ [batcherCompressed st f],
            frame_counter := st.frame_counter + 1} ts := by
        unfold addFrame
        rw [if_neg h1, if_neg h2]
      rw [heq]
      have hall : ∀ cf ∈ st.current_batch ++ [batcherCompressed st f], KeyOK t k g cf := by
        intro cf hcf
        rw [List.mem_append, List.mem_singleton] at hcf
        rcases hcf with hcf | hcf
        · exact hpend cf hcf
        · subst hcf
          exact hc
      rcases addFinalize_cases
          {st with
            previous_frame := some f,
            current_batch := st.current_batch ++ [batcherCompressed st f],
            frame_counter := st.frame_counter + 1} ts with hfin | ⟨_, hfin⟩ <;>
        rw [hfin]
      · exact ⟨hall, fun b hb => Option.noConfusion hb, rfl, rfl, rfl⟩
      · refine ⟨?_, ?_, rfl, rfl, rfl⟩
        · intro cf hcf
          simp at hcf
        · intro b hb
          cases hb
          intro cf hcf
          simp only [mkBatch] at hcf
          exact hall cf hcf

theorem runBatcher_keyOK (t : CompressionType) (k : Nat)
    (g : Nat → Option (List Char)) (inputs : List (List Char × Nat)) :
    ∀ st : BatcherState, st.compression_type = t → st.keyframe_interval = k →
      (∀ i fr ts', inputs[i]? = some (fr, ts') → g (st.frame_counter + i) = some fr) →
      (∀ cf ∈ st.current_batch, KeyOK t k g cf) →
      (∀ cf ∈ (runBatcher st inputs).1.current_batch, KeyOK t k g cf) ∧
      (∀ b ∈ (runBatcher st inputs).2, ∀ cf ∈ b.frames, KeyOK t k g cf) := by
  induction inputs with
  | nil =>
    intro st _ _ _ hpend
    exact ⟨hpend, fun b hb => absurd hb (by simp [runBatcher])⟩
  | cons p rest ih =>
    intro st ht hk hg hpend
    rcases p with ⟨f, ts⟩
    have hg0 : g st.frame_counter = some f := by
      have := hg 0 f ts (by simp)
      simpa using this
    obtain ⟨hpend', hemit, hfc, hct, hki⟩ :=
      addFrame_keyOK t k g st f ts ht hk hg0 hpend
    have hg' : ∀ i fr ts', rest[i]? = some (fr, ts') →
        g ((addFrame st f ts).1.frame_counter + i) = some fr := by
      intro i fr ts' hi
      rw [hfc]
      have := hg (i + 1) fr ts' (by simpa using hi)
      rw [show st.frame_counter + (i + 1) = st.frame_counter + 1 + i by omega] at this
      exact this
    obtain ⟨ihpend, ihemit⟩ := ih (addFrame st f ts).1 (by rw [hct, ht])
      (by rw [hki, hk]) hg' hpend'
    have hrun : runBatcher st ((f, ts) :: rest) =
        ((runBatcher (addFrame st f ts).1 rest).1,
          (addFrame st f ts).2.toList ++ (runBatcher (addFrame st f ts).1 rest).2) := rfl
    rw [hrun]
    refine ⟨ihpend, ?_⟩
    intro b hb
    rw [List.mem_append] at hb
    rcases hb with hb | hb
    · rcases hopt : (addFrame st f ts).2 with _ | b'
      · rw [hopt] at hb
        simp at hb
      · rw [hopt] at hb
        simp only [Option.toList_some, List.mem_singleton] at hb
        subst hb
        exact hemit b hopt
    · exact ihemit b hb

/-- Every frame in every batch emitted by a full batcher run (including the
flush) satisfies the keyframe contract relative to the input stream. -/
theorem runBatcherFlush_keyOK (t : CompressionType) (k : Nat)
    (g : Nat → Option (List Char)) (st : BatcherState)
    (inputs : List (List Char × Nat)) (tsf : Nat)
    (ht : st.compression_type = t) (hk : st.keyframe_interval = k)
    (hg : ∀ i fr ts', inputs[i]? = some (fr, ts') → g (st.frame_counter + i) = some fr)
    (hpend : ∀ cf ∈ st.current_batch, KeyOK t k g cf) :
    ∀ b ∈ (runBatcherFlush st inputs tsf).2, ∀ cf ∈ b.frames, KeyOK t k g cf := by
  obtain ⟨hpend', hemit⟩ := runBatcher_keyOK t k g inputs st ht hk hg hpend
  intro b hb
  unfold runBatcherFlush at hb
  simp only [List.mem_append] at hb
  rcases hb with hb | hb
  · exact hemit b hb
  · rcases hopt : (flushBatcher (runBatcher st inputs).1 tsf).2 with _ | b'
    · rw [hopt] at hb
      simp at hb
    · rw [hopt] at hb
      simp only [Option.toList_some, List.mem_singleton] at hb
      subst hb
      obtain ⟨hbeq, _⟩ := finalizeBatch_emit _ tsf b hopt
      subst hbeq
      intro cf hcf
      simp only [mkBatch] at hcf
      exact hpend' cf hcf

/-- `FrameDecoder` (`monegle-receiver/src/decoder.rs`): one nullable
previous decoded frame. -/
structure DecoderState where
  previous_frame : Option (List Char)
deriving DecidableEq, Repr

/-- `FrameDecoder::decode_frame`: resolve the reference as none for
keyframes, else the held previous frame; on success store the decoded
frame as the new previous frame; on failure (the `?` operator) return
before the store, leaving the state untouched. -/
def decodeFrameS (st : DecoderState) (cf : CompressedFrame) :
    DecoderState × Option (List Char) :=
  match decodeFrame cf (if cf.is_keyframe then none else st.previous_frame) with
  | some s => (⟨some s⟩, some s)
  | none => (st, none)

/-- `FrameDecoder::decode_batch`: decode the batch's frames in order,
collecting successes and skipping (logging) failures; always returns `Ok`
with the collected frames. -/
def decodeBatchS : DecoderState → List CompressedFrame →
    DecoderState × List (List Char)
  | st, [] => (st, [])
  | st, cf :: rest =>
    let r := decodeFrameS st cf
    let rr := decodeBatchS r.1 rest
    (rr.1, r.2.toList ++ rr.2)

/-- `FrameBuffer` (`monegle-receiver/src/buffer.rs`): the
`HashMap<u64, Vec<String>>` is modelled as an association list with
distinct keys (the map operations below are key-based, so the entry order
never matters). -/
structure JitterBuffer where
  buffer : List (Nat × List (List Char))
  current_sequence : Nat
  current_frame_index : Nat
  capacity : Nat
  frame_count : Nat
deriving DecidableEq, Repr

/-- `FrameBuffer::new`. -/
def newBuffer (capacity : Nat) : JitterBuffer where
  buffer := []
  current_sequence := 0
  current_frame_index := 0
  capacity := capacity
  frame_count := 0

/-- `HashMap::contains_key`. -/
def bufContains (buf : List (Nat × List (List Char))) (k : Nat) : Bool :=
  buf.any (fun p => p.1 == k)

/-- `HashMap::get`. -/
def bufGet (buf : List (Nat × List (List Char))) (k : Nat) :
    Option (List (List Char)) :=
  (buf.find? (fun p => p.1 == k)).map Prod.snd

/-- `self.buffer.keys().min()`. -/
def bufMinKey (buf : List (Nat × List (List Char))) : Option Nat :=
  buf.foldr
    (fun p acc =>
      match acc with
      | none => some p.1
      | some m => some (min p.1 m))
    none

/-- `HashMap::insert` (replacing any existing entry for the key). -/
def bufInsert (buf : List (Nat × List (List Char))) (k : Nat)
    (v : List (List Char)) : List (Nat × List (List Char)) :=
  (k, v) :: buf.filter (fun p => p.1 != k)

/-- `HashMap::remove`. -/
def bufRemove (buf : List (Nat × List (List Char))) (k : Nat) :
    List (Nat × List (List Char)) :=
  buf.filter (fun p => p.1 != k)

/-- `FrameBuffer::add_batch`: when the number of buffered sequences has
reached capacity, evict the numerically smallest sequence (adjusting the
frame count by its length), then insert the new entry and add its length
to the frame count. -/
def addBatch (st : JitterBuffer) (sequence : Nat) (frames : List (List Char)) :
    JitterBuffer :=
  let st1 :=
    if st.buffer.length ≥ st.capacity then
      match bufMinKey st.buffer with
      | some seq =>
        match bufGet st.buffer seq with
        | some removed =>
          {st with
            buffer := bufRemove st.buffer seq,
            frame_count := st.frame_count - removed.length}
        | none => st
      | none => st
    else st
  {st1 with
    buffer := bufInsert st1.buffer sequence frames,
    frame_count := st1.frame_count + frames.length}

/-- The common tail of `next_frame` (`buffer.rs` lines 125-133): fetch the
frame at the cursor, bump the index.  A missing frame is the
"Frame not found" error. -/
def nextFrameRet (st : JitterBuffer) : JitterBuffer × Option (List Char) :=
  match ((bufGet st.buffer st.current_sequence).getD [])[st.current_frame_index]? with
  | some fr => ({st with current_frame_index := st.current_frame_index + 1}, some fr)
  | none => (st, none)

/-- The empty-batch check inside the sequence-exhausted branch of
`next_frame` ("Empty frame batch" error). -/
def nextFrameNonEmpty (st : JitterBuffer) : JitterBuffer × Option (List Char) :=
  if ((bufGet st.buffer st.current_sequence).getD []).isEmpty then (st, none)
  else nextFrameRet st

/-- `next_frame` after the initial presence check: if the index has
exhausted the current sequence's frame list, advance to the next sequence
and, when that is absent, jump to the smallest present sequence (the
backward case is what the source logs as "SEQUENCE JUMP BACKWARDS"); the
error cases return the already-mutated cursor exactly as the `?` returns
do in Rust. -/
def nextFrameBody (st : JitterBuffer) : JitterBuffer × Option (List Char) :=
  if st.current_frame_index ≥ ((bufGet st.buffer st.current_sequence).getD []).length then
    let st1 := {st with
      current_sequence := st.current_sequence + 1,
      current_frame_index := 0}
    if bufContains st1.buffer st1.current_sequence then nextFrameNonEmpty st1
    else
      match bufMinKey st1.buffer with
      | some seq => nextFrameNonEmpty {st1 with current_sequence := seq}
      | none => (st1, none)
  else nextFrameRet st

/-- `FrameBuffer::next_frame` (`buffer.rs`): when the current sequence is
absent, jump to the smallest present sequence and reset the index
("Buffer is empty" error when nothing is buffered at all); then run the
exhaustion logic and return the frame at the cursor. -/
def nextFrame (st : JitterBuffer) : JitterBuffer × Option (List Char) :=
  if bufContains st.buffer st.current_sequence then nextFrameBody st
  else
    match bufMinKey st.buffer with
    | some seq =>
      nextFrameBody {st with current_sequence := seq, current_frame_index := 0}
    | none => (st, none)

/-- The playback loop state of `adaptive-receiver.rs`'s `playback_task`:
the `VecDeque` of decoded frames, the `is_playing` flag and the frames
printed so far. -/
structure PlaybackState where
  buffer : List (List Char)
  is_playing : Bool
  displayed : List (List Char)
deriving DecidableEq, Repr

/-- An iteration of the `tokio::select!` loop is triggered either by a
received decoded frame or by the pacing timer (the timer arm is guarded by
`if is_playing`). -/
inductive PlaybackEvent where
  | recv (frame : List Char)
  | tick
deriving DecidableEq, Repr

/-- The check at the bottom of the loop body (`adaptive-receiver.rs` lines
235-239): it runs after every iteration, whether or not playback has ever
started. -/
def resumeCheck (resumeSize : Nat) (st : PlaybackState) : PlaybackState :=
  if ¬ st.is_playing = true ∧ resumeSize ≤ st.buffer.length then
    {st with is_playing := true}
  else st

/-- One iteration of `playback_task`'s loop.  `recv`: push the frame, start
playing when the buffer first reaches the initial threshold, then the
bottom-of-loop resume check.  `tick` (only fires while playing): pop and
display one frame, pause when the buffer is emptied, then the same resume
check. -/
def playbackStep (initialSize resumeSize : Nat) (st : PlaybackState) :
    PlaybackEvent → PlaybackState
  | .recv f =>
    let st1 := {st with buffer := st.buffer ++ [f]}
    let st2 :=
      if ¬ st1.is_playing = true ∧ initialSize ≤ st1.buffer.length then
        {st1 with is_playing := true}
      else st1
    resumeCheck resumeSize st2
  | .tick =>
    if st.is_playing then
      resumeCheck resumeSize
        (match st.buffer with
          | f :: rest =>
            {st with
              buffer := rest,
              displayed := st.displayed ++ [f],
              is_playing := ¬ rest.isEmpty}
          | [] => {st with is_playing := false})
    else st

/-- Run `playback_task` over a sequence of loop iterations, starting from
the empty, not-playing state. -/
def runPlayback (initialSize resumeSize : Nat) (events : List PlaybackEvent) :
    PlaybackState :=
  events.foldl (playbackStep initialSize resumeSize) ⟨[], false, []⟩

/-- A 32-byte stream id (all zeros) for the concrete scenarios below. -/
def sid0 : List Nat := List.replicate 32 0

/-- Metadata configuring the `Auto` meta-strategy with one frame per batch. -/
def mdAuto : StreamMetadata where
  fps := 5
  width := 2
  height := 1
  compression_type := .Auto
  character_set := .Standard
  color_mode := .None
  frames_per_batch := 1

/-- Metadata configuring the `None` strategy with one frame per batch. -/
def mdNone1 : StreamMetadata where
  fps := 5
  width := 2
  height := 1
  compression_type := .None
  character_set := .Standard
  color_mode := .None
  frames_per_batch := 1

/-- Metadata configuring the `None` strategy with two frames per batch. -/
def mdNone2 : StreamMetadata where
  fps := 5
  width := 2
  height := 1
  compression_type := .None
  character_set := .Standard
  color_mode := .None
  frames_per_batch := 2

/-- C1: with the configured compression kind `Auto`, the batcher stamps the
emitted `CompressedFrame` with `Auto` itself — not with the concrete kind
`encode_best` chose (here `None`, as the data is the 1-byte raw encoding of
`"A"`) — and the decoder's dispatch on that tag (`HybridEncoder::decode`,
which falls back to zlib) then fails on the frame.  This exhibits the code
contradicting the claim that `Auto` never appears as a wire
`compression_type`. -/
theorem c1_batcher_emits_auto_tag :
    ((addFrame (newBatcher sid0 mdAuto 10000 30) ['A'] 0).2.map
      (fun b => b.frames.map CompressedFrame.compression_type)) =
        some [CompressionType.Auto] ∧
    ((addFrame (newBatcher sid0 mdAuto 10000 30) ['A'] 0).2.map
      (fun b => b.frames.map CompressedFrame.data)) = some [[65]] ∧
    ((addFrame (newBatcher sid0 mdAuto 10000 30) ['A'] 0).2.map
      (fun b => b.frames.map (fun f => decodeFrame f none))) = some [none] := by
  refine ⟨?_, ?_, ?_⟩ <;> rfl

/-- C2: on the jitter buffer, after `add_batch(5, [a, b])` and
`add_batch(7, [c])`, the first two `next_frame()` calls return `a` and `b`,
but the third returns `a` again — not `c`: the exhausted sequence 5 is
never removed, so the jump "to the earliest sequence" lands back on 5.
This exhibits the code contradicting the claimed jump to sequence 7. -/
theorem c2_next_frame_replays_exhausted_sequence :
    (nextFrame (addBatch (addBatch (newBuffer 10) 5 [['a'], ['b']]) 7 [['c']])).2 =
      some ['a'] ∧
    (nextFrame (nextFrame
      (addBatch (addBatch (newBuffer 10) 5 [['a'], ['b']]) 7 [['c']])).1).2 =
      some ['b'] ∧
    (nextFrame (nextFrame (nextFrame
      (addBatch (addBatch (newBuffer 10) 5 [['a'], ['b']]) 7 [['c']])).1).1).2 =
      some ['a'] ∧
    (['a'] : List Char) ≠ ['c'] := by
  refine ⟨?_, ?_, ?_, ?_⟩ <;> decide

/-- C3: in the adaptive playback task with `initial_buffer_size = 4` and
`resume_buffer_size = 2`, receiving just two frames and then one timer tick
already displays a frame: the bottom-of-loop resume check runs before
playback has ever started, so reaching the resume threshold alone starts
playback.  This exhibits the code contradicting the claim that nothing is
displayed before the initial threshold is first reached. -/
theorem c3_playback_starts_at_resume_threshold :
    (runPlayback 4 2 [.recv ['a'], .recv ['b'], .tick]).displayed = [['a']] ∧
    (runPlayback 4 2 [.recv ['a'], .recv ['b']]).is_playing = true := by
  exact ⟨by decide, by decide⟩

/-- C6: whenever Delta decode succeeds, the decoded string's character
count equals the payload's current-length field, and the previous frame
enters only through its truncation/space-padding to that length (entries
with byte length zero or positions past the end are skipped by
construction of `deltaApplyChanges`). -/
theorem c6_delta_length_authoritative (data : List Nat)
    (prev : Option (List Char)) (out : List Char)
    (h : deltaDecode data prev = some out) :
    out.length = lenField data ∧
      deltaDecode data (some (padTruncate (prev.getD []) (lenField data))) = some out :=
  deltaDecode_length_eq data prev out h

theorem c6_delta_length_authoritative_witness :
    deltaDecode [2, 0, 0, 0, 1, 0, 0, 0, 0, 0, 0, 0, 1, 65]
        (some ['x', 'y', 'z']) = some ['A', 'y'] ∧
    (['A', 'y'] : List Char).length =
      lenField [2, 0, 0, 0, 1, 0, 0, 0, 0, 0, 0, 0, 1, 65] ∧
    deltaDecode [2, 0, 0, 0, 1, 0, 0, 0, 0, 0, 0, 0, 1, 65]
      (some (padTruncate ['x', 'y', 'z']
        (lenField [2, 0, 0, 0, 1, 0, 0, 0, 0, 0, 0, 0, 1, 65]))) = some ['A', 'y'] :=
  ⟨by decide,
    (c6_delta_length_authoritative [2, 0, 0, 0, 1, 0, 0, 0, 0, 0, 0, 0, 1, 65]
      (some ['x', 'y', 'z']) ['A', 'y'] (by decide)).1,
    (c6_delta_length_authoritative [2, 0, 0, 0, 1, 0, 0, 0, 0, 0, 0, 0, 1, 65]
      (some ['x', 'y', 'z']) ['A', 'y'] (by decide)).2⟩

/-- C7: the three stateless strategies None, RunLength and Deflate each
decode their own encoding back to the original frame, for every frame —
including the empty frame and frames with runs longer than 65535 identical
characters (the RLE count cap splits such runs; nothing here bounds the
frame length). -/
theorem c7_stateless_codec_roundtrips (f : List Char) :
    decodeK .None (encodeK .None f none) none = some f ∧
    decodeK .Rle (encodeK .Rle f none) none = some f ∧
    decodeK .Zlib (encodeK .Zlib f none) none = some f :=
  ⟨noneDecode_encode f, rleDecode_encode f, zlibDecode_encode f⟩

/-- C9: when a per-frame decode fails, the decoder state is exactly what it
was before the call, and `decode_batch` on a batch starting with that
failing frame behaves exactly as on the batch without it — the failure is
skipped, never aborting the batch, and later delta frames resolve against
the last successfully decoded frame. -/
theorem c9_decoder_failure_preserves_state (st : DecoderState)
    (cf : CompressedFrame) (fs : List CompressedFrame)
    (h : (decodeFrameS st cf).2 = none) :
    (decodeFrameS st cf).1 = st ∧ decodeBatchS st (cf :: fs) = decodeBatchS st fs := by
  have hS : decodeFrameS st cf = (st, none) := by
    unfold decodeFrameS at h ⊢
    rcases hm : decodeFrame cf (if cf.is_keyframe = true then none else st.previous_frame)
        with _ | s
    · rfl
    · rw [hm] at h
      exact absurd h (by simp)
  refine ⟨by rw [hS], ?_⟩
  have hred : decodeBatchS st (cf :: fs) =
      ((decodeBatchS (decodeFrameS st cf).1 fs).1,
        (decodeFrameS st cf).2.toList ++ (decodeBatchS (decodeFrameS st cf).1 fs).2) := rfl
  rw [hred, hS]
  simp

theorem c9_decoder_failure_preserves_state_witness :
    (decodeFrameS ⟨some ['a']⟩ ⟨.Delta, [], 0, false⟩).1 = ⟨some ['a']⟩ ∧
    decodeBatchS ⟨some ['a']⟩ [⟨.Delta, [], 0, false⟩, ⟨.None, [66], 1, true⟩] =
      decodeBatchS ⟨some ['a']⟩ [⟨.None, [66], 1, true⟩] :=
  c9_decoder_failure_preserves_state ⟨some ['a']⟩ ⟨.Delta, [], 0, false⟩
    [⟨.None, [66], 1, true⟩] (by decide)

/-- C4 counterexample: with `max_batch_size = 10` and one frame per batch,
the single-frame batch the batcher emits serializes to 96 bytes — far over
the configured budget — because a first frame is always appended without a
size check and a one-frame batch is finalized by the target count alone. -/
theorem c4_single_frame_batch_oversized :
    (runBatcherFlush (newBatcher sid0 mdNone1 10 5) [(['a'], 0)] 0).2.map
      FrameBatch.sizeBytes = [96] ∧ ¬ (96 ≤ 10) := by
  exact ⟨by decide, by decide⟩

/-- C4 (amended): every batch emitted by a batcher run — including the
final flush — that contains at least two frames has serialized size at
most the configured `max_batch_size`; single-frame batches are exempt, as
the source appends the first frame unconditionally. -/
theorem c4_emitted_batch_size_bounded (sid : List Nat) (md : StreamMetadata)
    (maxB k tsf : Nat) (inputs : List (List Char × Nat)) (b : FrameBatch)
    (hb : b ∈ (runBatcherFlush (newBatcher sid md maxB k) inputs tsf).2)
    (h2 : 2 ≤ b.frames.length) : b.sizeBytes ≤ maxB := by
  have h := runBatcherFlush_all (newBatcher sid md maxB k) inputs tsf
    (by
      intro hlen
      simp [newBatcher] at hlen) b hb
  exact h.2 h2

def c4batch : FrameBatch :=
  ((runBatcherFlush (newBatcher sid0 mdNone2 1000 5) [(['a'], 0), (['b'], 0)] 0).2).headD
    ⟨[], 0, mdNone2, [], 0⟩

theorem c4_emitted_batch_size_bounded_witness :
    2 ≤ c4batch.frames.length ∧ c4batch.sizeBytes ≤ 1000 :=
  ⟨by decide, c4_emitted_batch_size_bounded sid0 mdNone2 1000 5 0
    [(['a'], 0), (['b'], 0)] c4batch (by decide) (by decide)⟩

/-- C10: no batch emitted by a batcher run, including the final flush, has
an empty frame list. -/
theorem c10_no_empty_batch (sid : List Nat) (md : StreamMetadata)
    (maxB k tsf : Nat) (inputs : List (List Char × Nat)) (b : FrameBatch)
    (hb : b ∈ (runBatcherFlush (newBatcher sid md maxB k) inputs tsf).2) :
    b.frames ≠ [] := by
  have h := runBatcherFlush_all (newBatcher sid md maxB k) inputs tsf
    (by
      intro hlen
      simp [newBatcher] at hlen) b hb
  exact h.1

def c10batch : FrameBatch :=
  ((runBatcherFlush (newBatcher sid0 mdNone2 1000 7)
    [(['x'], 0), (['y'], 0), (['z'], 0)] 5).2).headD ⟨[], 0, mdNone2, [], 0⟩

theorem c10_no_empty_batch_witness : c10batch.frames ≠ [] :=
  c10_no_empty_batch sid0 mdNone2 1000 7 5 [(['x'], 0), (['y'], 0), (['z'], 0)]
    c10batch (by decide)

/-- C5 (amended): the Delta roundtrip holds for every pair of frames whose
character counts fit the wire format's `u32` fields, including pairs where
the current frame is shorter than the previous one. -/
theorem c5_delta_roundtrip (f1 f2 : List Char) (h1 : f1.length < 4294967296)
    (h2 : f2.length < 4294967296) :
    deltaDecode (deltaEncode f2 (some f1)) (some f1) = some f2 :=
  deltaDecode_deltaEncode f2 (some f1) h2 h1

theorem c5_delta_roundtrip_witness :
    deltaDecode (deltaEncode ['H', 'o'] (some ['H', 'i', '!'])) (some ['H', 'i', '!']) =
      some ['H', 'o'] :=
  c5_delta_roundtrip ['H', 'i', '!'] ['H', 'o'] (by decide) (by decide)

theorem c5_diffs_replicate_length :
    (deltaDiffs (List.replicate 4294967296 'a') []).length = 4294967296 := by
  have hmap := deltaDiffs_map_fst (List.replicate 4294967296 'a') []
  have hfilter : (List.range (max (List.replicate 4294967296 'a').length
      (List.length ([] : List Char)))).filter
      (fun i => decide ((List.replicate 4294967296 'a')[i]? ≠ ([] : List Char)[i]?)) =
      List.range 4294967296 := by
    simp only [List.length_replicate, List.length_nil, Nat.max_zero]
    rw [List.filter_eq_self]
    intro i hi
    rw [List.mem_range] at hi
    simp only [decide_eq_true_eq, List.getElem?_replicate_of_lt hi, List.getElem?_nil]
    intro hcon
    exact Option.noConfusion hcon
  rw [hfilter] at hmap
  have hlen := congrArg List.length hmap
  rw [List.length_map, List.length_range] at hlen
  exact hlen

theorem c5_encode_replicate :
    deltaEncode (List.replicate 4294967296 'a') (some []) =
      0 :: 0 :: 0 :: 0 :: 0 :: 0 :: 0 :: 0 ::
        (deltaDiffs (List.replicate 4294967296 'a') []).flatMap deltaEntryBytes := by
  unfold deltaEncode
  simp only [Option.getD_some, List.length_replicate, c5_diffs_replicate_length]
  have hu : u32le 4294967296 = [0, 0, 0, 0] := by decide
  rw [hu]
  simp only [List.cons_append, List.nil_append]

/-- C5 counterexample: at a current frame of exactly `2^32` identical
characters and an empty previous frame, both the length field and the
change count wrap to zero (`as u32` casts), so the decoder reconstructs
the empty string instead of the original frame. -/
theorem c5_delta_roundtrip_u32_overflow :
    ¬ (deltaDecode (deltaEncode (List.replicate 4294967296 'a') (some []))
        (some []) = some (List.replicate 4294967296 'a')) := by
  intro hcon
  rw [c5_encode_replicate] at hcon
  have hdec : deltaDecode (0 :: 0 :: 0 :: 0 :: 0 :: 0 :: 0 :: 0 ::
      (deltaDiffs (List.replicate 4294967296 'a') []).flatMap deltaEntryBytes)
      (some []) = some [] := rfl
  rw [hdec] at hcon
  injection hcon with h'
  have := congrArg List.length h'
  simp only [List.length_nil, List.length_replicate] at this
  omega

/-- C8 counterexample: under the `Auto` meta-strategy, the very first frame
(global number 0, a multiple of every interval) is emitted as a keyframe,
but its payload does not decode back to the original frame with no
previous reference: the frame is tagged `Auto`, so the decoder's dispatch
falls back to zlib and fails on the `None`-encoded payload. -/
theorem c8_keyframe_auto_undecodable :
    ((addFrame (newBatcher sid0 mdAuto 10000 30) ['A'] 0).2.map
      (fun b => b.frames.map
        (fun f => (f.frame_number % 30, f.is_keyframe, decodeFrame f none)))) =
      some [(0, true, none)] ∧
    (none : Option (List Char)) ≠ some ['A'] := by
  exact ⟨by decide, by decide⟩

/-- C8 (amended): for a batcher configured with a concrete compression kind
(not `Auto`), a positive keyframe interval and input frames of fewer than
`2^32` characters each, every emitted frame whose global number is a
multiple of the interval is marked as a keyframe, carries the
no-previous-reference encoding of the corresponding input frame, and that
payload decodes back to the input frame with no previous reference. -/
theorem c8_keyframe_contract (sid : List Nat) (md : StreamMetadata)
    (maxB k tsf : Nat) (inputs : List (List Char × Nat)) (b : FrameBatch)
    (cf : CompressedFrame) (hauto : md.compression_type ≠ .Auto) (hk : 0 < k)
    (hlen : ∀ p ∈ inputs, (Prod.fst p).length < 4294967296)
    (hb : b ∈ (runBatcherFlush (newBatcher sid md maxB k) inputs tsf).2)
    (hcf : cf ∈ b.frames) (hmul : cf.frame_number % k = 0) :
    cf.is_keyframe = true ∧
    ∃ fr ts', inputs[cf.frame_number]? = some (fr, ts') ∧
      cf.data = encodeK md.compression_type fr none ∧
      decodeFrame cf none = some fr := by
  have hall := runBatcherFlush_keyOK md.compression_type k
    (fun m => (inputs[m]?).map Prod.fst) (newBatcher sid md maxB k) inputs tsf
    rfl rfl
    (by
      intro i fr ts' hi
      show Option.map Prod.fst inputs[(newBatcher sid md maxB k).frame_counter + i]? =
        some fr
      have hfc : (newBatcher sid md maxB k).frame_counter + i = i := Nat.zero_add i
      rw [hfc, hi]
      rfl)
    (by
      intro cf hcf
      simp [newBatcher] at hcf)
  obtain ⟨hct, hkey, hdata⟩ := hall b hb cf hcf
  obtain ⟨fr, hg, hdat⟩ := hdata hmul
  dsimp only at hg
  rcases hopt : inputs[cf.frame_number]? with _ | p
  · rw [hopt] at hg
    exact absurd hg (by simp)
  · rw [hopt] at hg
    simp only [Option.map_some'] at hg
    injection hg with hp1
    refine ⟨by rw [hkey, Nat.beq_eq_true_eq]; exact hmul, fr, p.2, ?_, hdat, ?_⟩
    · rw [← hp1]
    · have hfrlen : fr.length < 4294967296 := by
        rw [← hp1]
        exact hlen p (List.getElem?_mem hopt)
      have hdec : decodeFrame cf none = decodeK cf.compression_type cf.data none := rfl
      rw [hdec, hct, hdat]
      exact decodeK_encodeK_none md.compression_type fr hauto hfrlen

def c8batch : FrameBatch :=
  ((runBatcherFlush (newBatcher sid0 mdNone1 1000 2) [(['a'], 0), (['b'], 0)] 0).2).headD
    ⟨[], 0, mdNone1, [], 0⟩

def c8frame : CompressedFrame := c8batch.frames.headD ⟨.None, [], 0, false⟩

theorem c8_keyframe_contract_witness :
    c8frame.is_keyframe = true ∧
    ∃ fr ts', [(['a'], 0), (['b'], 0)][c8frame.frame_number]? = some (fr, ts') ∧
      c8frame.data = encodeK mdNone1.compression_type fr none ∧
      decodeFrame c8frame none = some fr :=
  c8_keyframe_contract sid0 mdNone1 1000 2 0 [(['a'], 0), (['b'], 0)] c8batch c8frame
    (by decide) (by decide) (by decide) (by decide) (by decide) (by decide)
